import Mathlib

/-!
Verification development for the `hideCustomGIFs` plugin
(`src/plugins/hideCustomGIFs/index.tsx`): an exact-match media-blocking
engine with URL canonicalization, GIF classification, a normalized
blocklist, and per-message override state.

The plugin's own functions are translated directly from the source.
The JavaScript platform builtins they call (`new URL`, `URLSearchParams`,
`decodeURI`, `String.prototype.trim`, the one regular expression) are
modelled explicitly below.  Scope of the builtin model:

* `new URL` covers absolute hierarchical URLs of the form
  `scheme://host/path?query#fragment`.  Userinfo (`@`), backslashes,
  percent-escapes, and strings with interior whitespace are treated as
  parse failures, and query keys/values are kept as raw strings (the
  real parser percent-decodes and re-encodes them); the WHATWG parser
  accepts more, so theorems quantified over parsed URLs are relative to
  this subset.  Leading and trailing C0-control/space characters are
  stripped and interior tab/newline characters removed before parsing,
  as in the WHATWG basic URL parser; scheme and host are lowercased at
  parse time, path case is preserved, and empty path becomes `/`.
* `decodeURI` decodes single-byte ASCII percent-escapes, leaving the
  URI-reserved set encoded; escapes of bytes `0x80` and above (which the
  real builtin resolves through UTF-8) are treated as failures.
* character classes are ASCII; the host application feeds ASCII URLs.
-/

/-- Lowercase mapping for an ASCII character, as `toLowerCase` acts on
the ASCII range; other characters are unchanged. -/
def charLower (c : Char) : Char :=
  if 65 ≤ c.toNat ∧ c.toNat ≤ 90 then Char.ofNat (c.toNat + 32) else c

/-- ASCII letter test. -/
def isAlphaChar (c : Char) : Bool :=
  decide ((65 ≤ c.toNat ∧ c.toNat ≤ 90) ∨ (97 ≤ c.toNat ∧ c.toNat ≤ 122))

/-- ASCII digit test. -/
def isDigitChar (c : Char) : Bool :=
  decide (48 ≤ c.toNat ∧ c.toNat ≤ 57)

/-- Characters allowed after the first position of a URL scheme:
letters, digits, `+` (43), `-` (45), `.` (46). -/
def isSchemeTailChar (c : Char) : Bool :=
  isAlphaChar c || isDigitChar c ||
  decide (c.toNat = 43 ∨ c.toNat = 45 ∨ c.toNat = 46)

/-- Characters ending the host component: `/` (47), `?` (63), `#` (35). -/
def isHostDelim (c : Char) : Bool :=
  decide (c.toNat = 47 ∨ c.toNat = 63 ∨ c.toNat = 35)

/-- Control characters and space. -/
def isLe32 (c : Char) : Bool :=
  decide (c.toNat ≤ 32)

/-- Tab, line feed, carriage return: removed anywhere in a URL string by
the WHATWG parser. -/
def isTabNL (c : Char) : Bool :=
  decide (c.toNat = 9 ∨ c.toNat = 10 ∨ c.toNat = 13)

/-- Characters outside the scope of the URL model: whitespace/controls,
`%` (37), `\` (92).  Their presence makes the modelled parser fail. -/
def isBadUrlChar (c : Char) : Bool :=
  decide (c.toNat ≤ 32 ∨ c.toNat = 37 ∨ c.toNat = 92)

/-- Negation of `isBadUrlChar`, used in well-formedness conditions. -/
def urlCharOK (c : Char) : Bool :=
  !(isBadUrlChar c)

/-- JavaScript whitespace characters handled by the model (the ASCII
white space recognized by `String.prototype.trim`). -/
def isJsWs (c : Char) : Bool :=
  decide (c.toNat = 32 ∨ c.toNat = 9 ∨ c.toNat = 10 ∨ c.toNat = 13 ∨
          c.toNat = 11 ∨ c.toNat = 12)

/-- Drop leading and trailing characters satisfying `p`. -/
def trimBy (p : Char → Bool) (l : List Char) : List Char :=
  ((l.dropWhile p).reverse.dropWhile p).reverse

/-- Model of `String.prototype.trim` (ASCII scope). -/
def jsTrim (s : String) : String :=
  ⟨trimBy isJsWs s.data⟩

/-- Split a character list at the first occurrence of `c`; the second
component is `none` when `c` does not occur. -/
def splitFirstChar (c : Char) : List Char → List Char × Option (List Char)
  | [] => ([], none)
  | x :: xs =>
    if x = c then ([], some xs)
    else
      let r := splitFirstChar c xs
      (x :: r.1, r.2)

/-- Split a character list at every occurrence of `c`. -/
def splitAllChar (c : Char) : List Char → List (List Char)
  | [] => [[]]
  | x :: xs =>
    let r := splitAllChar c xs
    if x = c then [] :: r
    else
      match r with
      | [] => [[x]]
      | h :: t => (x :: h) :: t

/-- Join character lists with `&` between them, the serialization shape
used by `URLSearchParams`. -/
def joinAmp : List (List Char) → List Char
  | [] => []
  | [x] => x
  | x :: y :: rest => x ++ '&' :: joinAmp (y :: rest)

/-- Parsed URL record: the components of `new URL(...)` the plugin
touches.  `search` is the query as an ordered key/value list (the
`URLSearchParams` view); `hash` is the fragment without `#`. -/
structure URLRec where
  scheme : String
  host : String
  pathname : String
  search : List (String × String)
  hash : String
deriving DecidableEq, Repr

/-- Model of `URLSearchParams` construction from a raw query: split on
`&`, discard empty segments, split each segment at its first `=` (a
missing `=` yields an empty value).  Keys and values are kept raw. -/
def parseQuery (q : List Char) : List (String × String) :=
  ((splitAllChar '&' q).filter (fun seg => !seg.isEmpty)).map (fun seg =>
    let r := splitFirstChar '=' seg
    (⟨r.1⟩, ⟨r.2.getD []⟩))

/-- Model of `URLSearchParams` serialization: `k=v` pairs joined by `&`. -/
def serializeQuery (ps : List (String × String)) : List Char :=
  joinAmp (ps.map (fun p => p.1.data ++ '=' :: p.2.data))

/-- String form of a URL record, the model of `url.toString()`: an empty
pair list means no query (no `?`), an empty fragment means no `#`. -/
def URLRec.toStr (r : URLRec) : String :=
  r.scheme ++ "://" ++ r.host ++ r.pathname ++
  (if r.search.isEmpty then "" else ⟨'?' :: serializeQuery r.search⟩) ++
  (if r.hash = "" then "" else ⟨'#' :: r.hash.data⟩)

/-- Authority (host) component: the remainder up to the first `/`, `?`
or `#`. -/
def authPart (r : List Char) : List Char :=
  r.takeWhile (fun c => !isHostDelim c)

/-- Path-query-fragment remainder after the authority component. -/
def afterAuthPart (r : List Char) : List Char :=
  r.dropWhile (fun c => !isHostDelim c)

/-- Path component of the remainder: before the first `#`, then before
the first `?`; empty becomes `/`. -/
def pathPart (r : List Char) : List Char :=
  if ((splitFirstChar '?' (splitFirstChar '#' (afterAuthPart r)).1).1).isEmpty
  then ['/']
  else (splitFirstChar '?' (splitFirstChar '#' (afterAuthPart r)).1).1

/-- Raw query of the remainder: between the first `?` (within the
pre-fragment part) and the fragment. -/
def queryPart (r : List Char) : Option (List Char) :=
  (splitFirstChar '?' (splitFirstChar '#' (afterAuthPart r)).1).2

/-- Raw fragment of the remainder, without `#`. -/
def hashPart (r : List Char) : Option (List Char) :=
  (splitFirstChar '#' (afterAuthPart r)).2

/-- Core of the URL parser, applied after input cleanup: scheme (first
character a letter), literal `://`, non-empty host without `@` up to a
delimiter, then path, raw query and fragment.  An empty path becomes
`/`; scheme and host are lowercased. -/
def parseCore (l : List Char) : Option URLRec :=
  match (l.takeWhile isSchemeTailChar).head? with
  | none => none
  | some c0 =>
    if !isAlphaChar c0 then none
    else
      match l.dropWhile isSchemeTailChar with
      | ':' :: '/' :: '/' :: r =>
        if (authPart r).isEmpty || (authPart r).contains '@' then none
        else
          some
            { scheme := ⟨(l.takeWhile isSchemeTailChar).map charLower⟩
              host := ⟨(authPart r).map charLower⟩
              pathname := ⟨pathPart r⟩
              search := parseQuery ((queryPart r).getD [])
              hash := ⟨(hashPart r).getD []⟩ }
      | _ => none

/-- Model of `new URL(s)`: strip leading/trailing C0-control/space,
remove interior tab/newline, refuse remaining out-of-scope characters,
then run the core parser.  `none` is a thrown `TypeError`. -/
def urlParse (s : String) : Option URLRec :=
  let l := (trimBy isLe32 s.data).filter (fun c => !isTabNL c)
  if l.any isBadUrlChar then none else parseCore l

/-- Hexadecimal digit value, for the `decodeURI` model. -/
def hexDigit? (c : Char) : Option Nat :=
  if 48 ≤ c.toNat ∧ c.toNat ≤ 57 then some (c.toNat - 48)
  else if 65 ≤ c.toNat ∧ c.toNat ≤ 70 then some (c.toNat - 55)
  else if 97 ≤ c.toNat ∧ c.toNat ≤ 102 then some (c.toNat - 87)
  else none

/-- URI-reserved characters (plus `#`) whose percent-escapes `decodeURI`
leaves encoded. -/
def uriReservedSet : List Char :=
  [';', '/', '?', ':', '@', '&', '=', '+', '$', ',', '#']

/-- Model of `decodeURI` on character lists; `none` is a thrown
`URIError` (malformed escape, or a non-ASCII escape, see scope note). -/
def decodeURIChars : List Char → Option (List Char)
  | [] => some []
  | '%' :: c1 :: c2 :: rest =>
    match hexDigit? c1, hexDigit? c2 with
    | some h1, some h2 =>
      let n := 16 * h1 + h2
      if 128 ≤ n then none
      else
        match decodeURIChars rest with
        | some tail =>
          if uriReservedSet.contains (Char.ofNat n) then
            some ('%' :: c1 :: c2 :: tail)
          else some (Char.ofNat n :: tail)
        | none => none
    | _, _ => none
  | '%' :: _ => none
  | c :: rest => (decodeURIChars rest).map (fun t => c :: t)

/-- Model of `decodeURI` on strings. -/
def jsDecodeURI (s : String) : Option String :=
  (decodeURIChars s.data).map (fun l => ⟨l⟩)

/-- Bool test that `suffix` starts the list. -/
def startsWithL : List Char → List Char → Bool
  | _, [] => true
  | [], _ :: _ => false
  | x :: xs, y :: ys => x == y && startsWithL xs ys

/-- Bool test that `t` ends the list `l`. -/
def endsWithL (l t : List Char) : Bool :=
  startsWithL l.reverse t.reverse

/-- Model of `String.prototype.endsWith`. -/
def strEndsWith (s t : String) : Bool :=
  endsWithL s.data t.data

/-- Model of `s.slice(0, -1)`: drop the final character. -/
def strDropLast (s : String) : String :=
  ⟨s.data.dropLast⟩

/-- Model of `String.prototype.toLowerCase` (ASCII scope). -/
def toLowerS (s : String) : String :=
  ⟨s.data.map charLower⟩

/-- Model of `searchParams.get(k)`: value of the first pair with key
`k`, or `none`. -/
def queryGet (ps : List (String × String)) (k : String) : Option String :=
  (ps.find? (fun p => p.1 == k)).map (fun p => p.2)

/-- Model of the regular expression test `/\.gif(?:\?|$)/i.test(s)`:
some position carries `.gif` (case-insensitive) followed by the end of
the string or a `?`. -/
def gifRegexTest : List Char → Bool
  | [] => false
  | c :: rest =>
    (c == '.' &&
      (match rest with
       | c1 :: c2 :: c3 :: rest2 =>
         charLower c1 == 'g' && charLower c2 == 'i' && charLower c3 == 'f' &&
         (rest2.isEmpty || rest2.head? == some '?')
       | _ => false))
    || gifRegexTest rest

/-- Truthiness of a JavaScript string-or-absent value: an absent value
and the empty string are falsy. -/
def truthyOpt (a : Option String) : Option String :=
  match a with
  | some s => if s = "" then none else some s
  | none => none

/-- Model of `a || b` on string-or-absent values, used for truthiness
tests only (a falsy final operand is identified with absence). -/
def jsOr (a b : Option String) : Option String :=
  match truthyOpt a with
  | some s => some s
  | none => truthyOpt b

/-- Model of `a || b || c` on string-or-absent values. -/
def jsOr3 (a b c : Option String) : Option String :=
  jsOr a (jsOr b c)

/-- Tracking-parameter keys deleted by the normalizer, from the source's
list literal. -/
def trackingParams : List String :=
  ["utm_source", "utm_medium", "utm_campaign", "utm_content", "utm_term"]

/-- Record-level effect of the `normalize` closure on a successfully
parsed URL: delete the five tracking parameters, clear the fragment,
trim one trailing path slash (when the path is not exactly `/`), and
lowercase the host. -/
def normTransform (r : URLRec) : URLRec :=
  let r1 : URLRec :=
    { r with search := r.search.filter (fun p => !trackingParams.contains p.1) }
  let r2 : URLRec := { r1 with hash := "" }
  let r3 : URLRec :=
    if r2.pathname ≠ "/" ∧ strEndsWith r2.pathname "/" then
      { r2 with pathname := strDropLast r2.pathname }
    else r2
  { r3 with host := toLowerS r3.host }

/-- The inner `normalize` of `equalsAnyUrl`: canonicalize via the URL
parser when possible; otherwise percent-decode and strip one trailing
slash; if even decoding fails, return the input unchanged. -/
def normalizeUrl (u : String) : String :=
  match urlParse u with
  | some parsed => (normTransform parsed).toStr
  | none =>
    match jsDecodeURI u with
    | some d => if strEndsWith d "/" then strDropLast d else d
    | none => u

/-- Translation of `equalsAnyUrl(url, urls)`: normalize the target, then
normalize the candidates after trimming them and discarding empty ones,
and test membership. -/
def equalsAnyUrl (url : String) (urls : List String) : Bool :=
  let target := normalizeUrl url
  let candidates := ((urls.map jsTrim).filter (fun s => !(s == ""))).map normalizeUrl
  candidates.contains target

/-- Translation of `isGifUrl(url)`: falsy input gives `false`; a parsed
URL is GIF-like when its lowercased path ends in `.gif` or its
`animated` query parameter is exactly `true`; otherwise (also when
parsing fails) the regular-expression test on the raw string decides. -/
def isGifUrl (url? : Option String) : Bool :=
  match truthyOpt url? with
  | none => false
  | some url =>
    (match urlParse url with
     | some u =>
       strEndsWith (toLowerS u.pathname) ".gif" ||
       (queryGet u.search "animated" == some "true")
     | none => false)
    || gifRegexTest url.data

/-- Attachment record shape consumed by the plugin. -/
structure Attachment where
  url? : Option String := none
  proxyUrl? : Option String := none
  contentType? : Option String := none
  messageId? : Option String := none
deriving DecidableEq, Repr

/-- Embed record shape consumed by the plugin (`image.url` and
`thumbnail.url` flattened into optional fields). -/
structure Embed where
  type? : Option String := none
  url? : Option String := none
  imageUrl? : Option String := none
  thumbnailUrl? : Option String := none
deriving DecidableEq, Repr

/-- Message record shape consumed by the plugin. -/
structure Msg where
  id? : Option String := none
  channelId? : Option String := none
  attachments : List Attachment := []
  embeds : List Embed := []
deriving DecidableEq, Repr

/-- Process-lifetime mutable state of the plugin: the two module-level
`Set<string>` registries and the persisted `settings.store.patterns`
sequence. -/
structure PluginState where
  blockedMessageIds : List String
  temporarilyUnblockedMessageIds : List String
  patterns : List String
deriving DecidableEq, Repr

/-- Insertion-ordered set add, the model of `Set.prototype.add`. -/
def addToSet (x : String) (l : List String) : List String :=
  if l.contains x then l else l ++ [x]

/-- Set removal, the model of `Set.prototype.delete`. -/
def removeFromSet (x : String) (l : List String) : List String :=
  l.filter (fun y => !(y == x))

/-- Membership test `set.has(v)` for a possibly absent id; `has` of an
absent id is `false`. -/
def idMem (id? : Option String) (l : List String) : Bool :=
  match id? with
  | some i => l.contains i
  | none => false

/-- Translation of `_markBlocked(messageId)`: add to the blocked set
only when the id is truthy. -/
def markBlocked (messageId? : Option String) (s : PluginState) : PluginState :=
  match messageId? with
  | some m =>
    if m = "" then s
    else { s with blockedMessageIds := addToSet m s.blockedMessageIds }
  | none => s

/-- Translation of `_shouldBlockUrl(url)` against a pattern list: falsy
or non-GIF URLs are never blocked, otherwise the normalized blocklist
decides.  The source's catch-all around `equalsAnyUrl` has no failing
path in the model, where every helper is total. -/
def shouldBlockUrl (url? : Option String) (patterns : List String) : Bool :=
  match truthyOpt url? with
  | none => false
  | some u =>
    if !isGifUrl (some u) then false
    else equalsAnyUrl u patterns

/-- Translation of `_shouldBlockEmbed(embed, message)`, returning the
decision and the updated state (the `_markBlocked` side effect). -/
def shouldBlockEmbed (embed : Embed) (message : Msg) (s : PluginState) :
    Bool × PluginState :=
  if idMem message.id? s.temporarilyUnblockedMessageIds then (false, s)
  else
    let url? := jsOr3 embed.url? embed.imageUrl? embed.thumbnailUrl?
    let isGifLike := embed.type? == some "gifv" || isGifUrl url?
    if !isGifLike then (false, s)
    else
      let shouldBlock :=
        if embed.type? == some "gifv" then
          match url? with
          | some u => equalsAnyUrl u s.patterns
          | none => false
        else shouldBlockUrl url? s.patterns
      if shouldBlock then (true, markBlocked message.id? s)
      else (false, s)

/-- GIF-likeness of an attachment as computed inside
`_filterAttachments` and `_collectGifUrlsFromMessage`: content type
`image/gif` (case-insensitive) or a GIF-like URL. -/
def attIsGif (att : Attachment) : Bool :=
  (match att.contentType? with
   | some t => toLowerS t == "image/gif"
   | none => false)
  || isGifUrl (jsOr att.url? att.proxyUrl?)

/-- Bypass test of `_filterAttachments`: a truthy `message_id` present
in the temporarily-unblocked set keeps the attachment unconditionally. -/
def attBypass (att : Attachment) (tus : List String) : Bool :=
  match att.messageId? with
  | some m => !(m == "") && tus.contains m
  | none => false

/-- Element-by-element translation of the `arr.filter` body of
`_filterAttachments`, threading the state mutated by `_markBlocked`. -/
def filterAttachmentsGo : List Attachment → PluginState →
    List Attachment × PluginState
  | [], s => ([], s)
  | att :: rest, s =>
    if attBypass att s.temporarilyUnblockedMessageIds then
      let r := filterAttachmentsGo rest s
      (att :: r.1, r.2)
    else
      let url? := jsOr att.url? att.proxyUrl?
      if !attIsGif att then
        let r := filterAttachmentsGo rest s
        (att :: r.1, r.2)
      else if shouldBlockUrl url? s.patterns then
        let s1 := markBlocked att.messageId? s
        filterAttachmentsGo rest s1
      else
        let r := filterAttachmentsGo rest s
        (att :: r.1, r.2)

/-- Translation of `_filterAttachments(arr)` on array input (the
non-array passthrough branch and the catch-all are outside the typed
model, where the body is total). -/
def filterAttachments (arr : List Attachment) (s : PluginState) :
    List Attachment × PluginState :=
  filterAttachmentsGo arr s

/-- Translation of `_collectGifUrlsFromMessage(message)`: gather GIF
URLs from attachments then embeds into an insertion-ordered set; `gifv`
embeds always contribute their truthy `url`. -/
def collectGifUrlsFromMessage (message : Msg) : List String :=
  let found := message.attachments.foldl (fun acc att =>
    match jsOr att.url? att.proxyUrl? with
    | some u => if attIsGif att then addToSet u acc else acc
    | none => acc) []
  message.embeds.foldl (fun acc emb =>
    if emb.type? == some "gifv" then
      match truthyOpt emb.url? with
      | some u => addToSet u acc
      | none => acc
    else
      match jsOr3 emb.url? emb.imageUrl? emb.thumbnailUrl? with
      | some u => if isGifUrl (some u) then addToSet u acc else acc
      | none => acc) found

/-- Merge loop of `_addUrlsToBlocklistAndRefresh`: append each new URL
to the merged list unless `equalsAnyUrl` already finds it there. -/
def mergeUrls (existing newUrls : List String) : List String :=
  newUrls.foldl
    (fun merged u => if equalsAnyUrl u merged then merged else merged ++ [u])
    existing

/-- Translation of `_addUrlsToBlocklistAndRefresh(message, urls)`; the
redraw request is an external side effect with no state in the model. -/
def addUrlsToBlocklistAndRefresh (_message : Msg) (urls : List String)
    (s : PluginState) : PluginState :=
  { s with patterns := mergeUrls s.patterns urls }

/-- Translation of `_toggleTemporaryUnblock(message, shouldUnblock)`;
messages without an id are outside the model's id type. -/
def toggleTemporaryUnblock (message : Msg) (shouldUnblock : Bool)
    (s : PluginState) : PluginState :=
  match message.id? with
  | some i =>
    if shouldUnblock then
      { s with temporarilyUnblockedMessageIds :=
          addToSet i s.temporarilyUnblockedMessageIds }
    else
      { s with temporarilyUnblockedMessageIds :=
          removeFromSet i s.temporarilyUnblockedMessageIds }
  | none => s

/-- Engine operations of a session, for the temporal claims: the two
filtering entry points, the three user actions, and pattern edits made
through the settings component. -/
inductive EngineOp where
  | classifyEmbed (e : Embed) (msg : Msg)
  | filterAtts (arr : List Attachment)
  | reveal (msg : Msg)
  | hideAgain (msg : Msg)
  | blockThese (msg : Msg) (urls : List String)
  | editPatterns (ps : List String)

/-- State effect of one engine operation. -/
def applyOp : EngineOp → PluginState → PluginState
  | .classifyEmbed e msg, s => (shouldBlockEmbed e msg s).2
  | .filterAtts arr, s => (filterAttachments arr s).2
  | .reveal msg, s => toggleTemporaryUnblock msg true s
  | .hideAgain msg, s => toggleTemporaryUnblock msg false s
  | .blockThese msg urls, s => addUrlsToBlocklistAndRefresh msg urls s
  | .editPatterns ps, s => { s with patterns := ps }

/-- State after a sequence of engine operations. -/
def runOps (ops : List EngineOp) (s : PluginState) : PluginState :=
  ops.foldl (fun st op => applyOp op st) s

/-- Well-formedness of a URL record, the invariant established by the
modelled parser and preserved by the normalizer: a non-empty
lowercase-fixed scheme led by a letter, a non-empty lowercase-fixed host
free of delimiters and `@` (code 64), a path starting with `/` and free
of `?` (63) and `#` (35), query pairs free of `&` (38) and `#` (keys
also free of `=` (61)), and in-scope characters throughout. -/
def URLRec.WF (r : URLRec) : Prop :=
  (r.scheme.data ≠ [] ∧
   (∀ c ∈ r.scheme.data, isSchemeTailChar c = true ∧ charLower c = c) ∧
   (∃ c0, r.scheme.data.head? = some c0 ∧ isAlphaChar c0 = true)) ∧
  (r.host.data ≠ [] ∧
   (∀ c ∈ r.host.data, urlCharOK c = true ∧ isHostDelim c = false ∧
      c.toNat ≠ 64 ∧ charLower c = c)) ∧
  ((∃ t, r.pathname.data = '/' :: t) ∧
   (∀ c ∈ r.pathname.data, urlCharOK c = true ∧ c.toNat ≠ 63 ∧ c.toNat ≠ 35)) ∧
  (∀ p ∈ r.search,
     (∀ c ∈ (Prod.fst p).data,
        urlCharOK c = true ∧ c.toNat ≠ 38 ∧ c.toNat ≠ 61 ∧ c.toNat ≠ 35) ∧
     (∀ c ∈ (Prod.snd p).data,
        urlCharOK c = true ∧ c.toNat ≠ 38 ∧ c.toNat ≠ 35)) ∧
  (∀ c ∈ r.hash.data, urlCharOK c = true)

/-! ### Basic facts about characters and strings -/

theorem charEq_of_toNat {c d : Char} (h : c.toNat = d.toNat) : c = d := by
  have h1 := Char.ofNat_toNat c
  have h2 := Char.ofNat_toNat d
  rw [h] at h1
  exact h1.symm.trans h2

theorem charOfNat_toNat {n : Nat} (hn : n.isValidChar) :
    (Char.ofNat n).toNat = n := by
  simp [Char.ofNat, hn, Char.ofNatAux, Char.toNat, UInt32.toNat, BitVec.toNat_ofNatLt]

theorem charLower_toNat_of_upper {c : Char} (h : 65 ≤ c.toNat ∧ c.toNat ≤ 90) :
    (charLower c).toNat = c.toNat + 32 := by
  rw [charLower, if_pos h]
  exact charOfNat_toNat (Or.inl (by omega))

theorem charLower_eq_self {c : Char} (h : ¬(65 ≤ c.toNat ∧ c.toNat ≤ 90)) :
    charLower c = c := by
  rw [charLower, if_neg h]

theorem charLower_cases (c : Char) :
    ((charLower c).toNat = c.toNat + 32 ∧ 65 ≤ c.toNat ∧ c.toNat ≤ 90) ∨
    charLower c = c := by
  by_cases h : 65 ≤ c.toNat ∧ c.toNat ≤ 90
  · exact Or.inl ⟨charLower_toNat_of_upper h, h⟩
  · exact Or.inr (charLower_eq_self h)

theorem charLower_idem (c : Char) : charLower (charLower c) = charLower c := by
  rcases charLower_cases c with ⟨h1, h2, h3⟩ | h
  · exact charLower_eq_self (by omega)
  · simp only [h]

theorem isAlphaChar_charLower {c : Char} (h : isAlphaChar c = true) :
    isAlphaChar (charLower c) = true := by
  simp only [isAlphaChar, decide_eq_true_eq] at h ⊢
  rcases charLower_cases c with ⟨h1, h2, h3⟩ | he
  · omega
  · rw [he]
    exact h

theorem isSchemeTailChar_charLower {c : Char} (h : isSchemeTailChar c = true) :
    isSchemeTailChar (charLower c) = true := by
  simp only [isSchemeTailChar, isAlphaChar, isDigitChar, Bool.or_eq_true,
    decide_eq_true_eq] at h ⊢
  rcases charLower_cases c with ⟨h1, h2, h3⟩ | he
  · omega
  · rw [he]
    exact h

theorem charLower_toNat_not_upper (c : Char) :
    ¬(65 ≤ (charLower c).toNat ∧ (charLower c).toNat ≤ 90) := by
  rcases charLower_cases c with ⟨h1, h2, h3⟩ | he
  · omega
  · rw [he]
    intro hc
    have := charLower_toNat_of_upper hc
    rw [he] at this
    omega

theorem urlCharOK_charLower {c : Char} (h : urlCharOK c = true) :
    urlCharOK (charLower c) = true := by
  simp only [urlCharOK, isBadUrlChar, Bool.not_eq_true', decide_eq_false_iff_not,
    not_or, not_le] at h ⊢
  rcases charLower_cases c with ⟨h1, h2, h3⟩ | he
  · omega
  · rw [he]
    exact h

theorem isHostDelim_charLower {c : Char} (h : isHostDelim c = false) :
    isHostDelim (charLower c) = false := by
  simp only [isHostDelim, decide_eq_false_iff_not, not_or] at h ⊢
  rcases charLower_cases c with ⟨h1, h2, h3⟩ | he
  · omega
  · rw [he]
    exact h

theorem toNat_ne_64_charLower {c : Char} (h : c.toNat ≠ 64) :
    (charLower c).toNat ≠ 64 := by
  rcases charLower_cases c with ⟨h1, h2, h3⟩ | he
  · omega
  · rw [he]
    exact h

theorem strData_mk (l : List Char) : (⟨l⟩ : String).data = l := rfl

theorem str_eq_empty_iff {s : String} : s = "" ↔ s.data = [] := by
  constructor
  · intro h
    rw [h]
  · intro h
    exact String.ext h

/-! ### Facts about takeWhile, dropWhile and trimming -/

theorem takeWhile_append_all {α : Type} {p : α → Bool} {a : List α} (b : List α)
    (h : ∀ x ∈ a, p x = true) : (a ++ b).takeWhile p = a ++ b.takeWhile p := by
  induction a with
  | nil => simp
  | cons x xs ih =>
    have hx := h x (List.mem_cons_self x xs)
    simp only [List.cons_append, List.takeWhile_cons, hx, if_true]
    rw [ih (fun y hy => h y (List.mem_cons_of_mem x hy))]

theorem dropWhile_append_all {α : Type} {p : α → Bool} {a : List α} (b : List α)
    (h : ∀ x ∈ a, p x = true) : (a ++ b).dropWhile p = b.dropWhile p := by
  induction a with
  | nil => simp
  | cons x xs ih =>
    have hx := h x (List.mem_cons_self x xs)
    simp only [List.cons_append, List.dropWhile_cons, hx, if_true]
    exact ih (fun y hy => h y (List.mem_cons_of_mem x hy))

theorem dropWhile_append_of_ne_nil {α : Type} {p : α → Bool} {l : List α}
    (w : List α) (h : l.dropWhile p ≠ []) :
    (l ++ w).dropWhile p = l.dropWhile p ++ w := by
  induction l with
  | nil => simp at h
  | cons x xs ih =>
    by_cases hx : p x = true
    · simp only [List.dropWhile_cons, hx, if_true] at h ⊢
      simp only [List.cons_append, List.dropWhile_cons, hx, if_true]
      exact ih h
    · have hx' : p x = false := by
        revert hx
        cases p x <;> simp
      simp only [List.cons_append, List.dropWhile_cons, hx', Bool.false_eq_true,
        if_false]

theorem dropWhile_eq_self_of_all {α : Type} {p : α → Bool} {l : List α}
    (h : ∀ x ∈ l, p x = false) : l.dropWhile p = l := by
  cases l with
  | nil => rfl
  | cons x xs =>
    have hx := h x (List.mem_cons_self x xs)
    simp only [List.dropWhile_cons, hx, Bool.false_eq_true, if_false]

theorem trimBy_eq_self {p : Char → Bool} {l : List Char}
    (h : ∀ x ∈ l, p x = false) : trimBy p l = l := by
  rw [trimBy, dropWhile_eq_self_of_all h, dropWhile_eq_self_of_all, List.reverse_reverse]
  intro x hx
  exact h x (List.mem_reverse.mp hx)

theorem trimBy_eq_nil_imp {p : Char → Bool} {l : List Char}
    (h : trimBy p l = []) : ∀ x ∈ l, p x = true := by
  rw [trimBy] at h
  have h2 : (l.dropWhile p).reverse.dropWhile p = [] := by
    have := congrArg List.reverse h
    rwa [List.reverse_reverse, List.reverse_nil] at this
  have h3 : ∀ x ∈ (l.dropWhile p).reverse, p x = true :=
    List.dropWhile_eq_nil_iff.mp h2
  have h4 : l.dropWhile p = [] := by
    cases hd : l.dropWhile p with
    | nil => rfl
    | cons y ys =>
      exfalso
      have hy : p y = true := by
        apply h3
        rw [hd]
        simp
      have := List.head?_dropWhile_not p l
      rw [hd] at this
      simp [hy] at this
  exact List.dropWhile_eq_nil_iff.mp h4

theorem trimBy_pad {q : Char → Bool} {w1 w2 : List Char} (m : List Char)
    (h1 : ∀ x ∈ w1, q x = true) (h2 : ∀ x ∈ w2, q x = true) :
    trimBy q (w1 ++ m ++ w2) = trimBy q m := by
  rw [trimBy, trimBy, List.append_assoc, dropWhile_append_all (m ++ w2) h1]
  by_cases hm : m.dropWhile q = []
  · have hall : ∀ x ∈ m, q x = true := List.dropWhile_eq_nil_iff.mp hm
    have hall2 : ∀ x ∈ m ++ w2, q x = true := by
      intro x hx
      rcases List.mem_append.mp hx with h | h
      · exact hall x h
      · exact h2 x h
    rw [List.dropWhile_eq_nil_iff.mpr hall2, hm]
  · rw [dropWhile_append_of_ne_nil w2 hm, List.reverse_append,
      dropWhile_append_all (m.dropWhile q).reverse]
    intro x hx
    exact h2 x (List.mem_reverse.mp hx)

theorem trimBy_sub {p q : Char → Bool} (l : List Char)
    (hpq : ∀ c, p c = true → q c = true) :
    trimBy q (trimBy p l) = trimBy q l := by
  have decomp : l = l.takeWhile p ++ trimBy p l ++
      ((l.dropWhile p).reverse.takeWhile p).reverse := by
    rw [trimBy, List.append_assoc]
    conv_lhs => rw [← List.takeWhile_append_dropWhile p l]
    congr 1
    conv_lhs => rw [← List.reverse_reverse (l.dropWhile p),
      ← List.takeWhile_append_dropWhile p (l.dropWhile p).reverse]
    rw [List.reverse_append]
  conv_rhs => rw [decomp]
  rw [trimBy_pad (trimBy p l)]
  · intro x hx
    exact hpq x (List.mem_takeWhile_imp hx)
  · intro x hx
    exact hpq x (List.mem_takeWhile_imp (List.mem_reverse.mp hx))

/-! ### Facts about the splitting helpers -/

theorem splitFirst_of_not_mem {c : Char} {a : List Char} (h : c ∉ a) :
    splitFirstChar c a = (a, none) := by
  induction a with
  | nil => rfl
  | cons x xs ih =>
    have hx : ¬x = c := fun he => h (he ▸ List.mem_cons_self x xs)
    have hxs : c ∉ xs := fun hm => h (List.mem_cons_of_mem x hm)
    simp only [splitFirstChar, hx, if_false, ih hxs]

theorem splitFirst_append_of_not_mem {c : Char} {a : List Char} (b : List Char)
    (h : c ∉ a) : splitFirstChar c (a ++ c :: b) = (a, some b) := by
  induction a with
  | nil => simp [splitFirstChar]
  | cons x xs ih =>
    have hx : ¬x = c := fun he => h (he ▸ List.mem_cons_self x xs)
    have hxs : c ∉ xs := fun hm => h (List.mem_cons_of_mem x hm)
    simp only [List.cons_append, splitFirstChar, hx, if_false]
    have h2 : xs.append (c :: b) = xs ++ c :: b := rfl
    rw [h2, ih hxs]

theorem splitFirst_fst_not_mem (c : Char) (l : List Char) :
    c ∉ (splitFirstChar c l).1 := by
  induction l with
  | nil => simp [splitFirstChar]
  | cons x xs ih =>
    by_cases hx : x = c
    · simp [splitFirstChar, hx]
    · simp only [splitFirstChar, hx, if_false]
      intro hmem
      rcases List.mem_cons.mp hmem with he | hm
      · exact hx he.symm
      · exact ih hm

theorem splitFirst_decomp (c : Char) (l : List Char) :
    (match (splitFirstChar c l).2 with
     | none => l = (splitFirstChar c l).1
     | some rest => l = (splitFirstChar c l).1 ++ c :: rest) := by
  induction l with
  | nil => simp [splitFirstChar]
  | cons x xs ih =>
    by_cases hx : x = c
    · simp [splitFirstChar, hx]
    · simp only [splitFirstChar, hx, if_false]
      cases hs : (splitFirstChar c xs).2 with
      | none =>
        rw [hs] at ih
        simpa using congrArg (fun t => x :: t) ih
      | some rest =>
        rw [hs] at ih
        simpa using congrArg (fun t => x :: t) ih

theorem splitAll_ne_nil (c : Char) (l : List Char) : splitAllChar c l ≠ [] := by
  cases l with
  | nil => simp [splitAllChar]
  | cons x xs =>
    simp only [splitAllChar]
    by_cases hx : x = c
    · simp [hx]
    · simp only [hx, if_false]
      cases splitAllChar c xs with
      | nil => simp
      | cons h t => simp

theorem splitAll_of_not_mem {c : Char} {a : List Char} (h : c ∉ a) :
    splitAllChar c a = [a] := by
  induction a with
  | nil => rfl
  | cons x xs ih =>
    have hx : ¬x = c := fun he => h (he ▸ List.mem_cons_self x xs)
    have hxs : c ∉ xs := fun hm => h (List.mem_cons_of_mem x hm)
    simp only [splitAllChar, hx, if_false, ih hxs]

theorem splitAll_append {c : Char} {a : List Char} (b : List Char) (h : c ∉ a) :
    splitAllChar c (a ++ c :: b) = a :: splitAllChar c b := by
  induction a with
  | nil => simp [splitAllChar]
  | cons x xs ih =>
    have hx : ¬x = c := fun he => h (he ▸ List.mem_cons_self x xs)
    have hxs : c ∉ xs := fun hm => h (List.mem_cons_of_mem x hm)
    simp only [List.cons_append, splitAllChar, hx, if_false]
    have h2 : xs.append (c :: b) = xs ++ c :: b := rfl
    rw [h2, ih hxs]

theorem splitAll_mem_spec {c : Char} {l : List Char} :
    ∀ seg ∈ splitAllChar c l, c ∉ seg ∧ ∀ x ∈ seg, x ∈ l := by
  induction l with
  | nil =>
    intro seg hseg
    simp only [splitAllChar, List.mem_singleton] at hseg
    subst hseg
    simp
  | cons y ys ih =>
    intro seg hseg
    simp only [splitAllChar] at hseg
    by_cases hy : y = c
    · rw [if_pos hy] at hseg
      rcases List.mem_cons.mp hseg with he | hm
      · subst he
        simp
      · rcases ih seg hm with ⟨h1, h2⟩
        exact ⟨h1, fun x hx => List.mem_cons_of_mem y (h2 x hx)⟩
    · rw [if_neg hy] at hseg
      cases hr : splitAllChar c ys with
      | nil => exact absurd hr (splitAll_ne_nil c ys)
      | cons rh rt =>
        rw [hr] at hseg ih
        rcases List.mem_cons.mp hseg with he | hm
        · subst he
          rcases ih rh (List.mem_cons_self rh rt) with ⟨h1, h2⟩
          constructor
          · intro hmem
            rcases List.mem_cons.mp hmem with he2 | hm2
            · exact hy he2.symm
            · exact h1 hm2
          · intro x hx
            rcases List.mem_cons.mp hx with he2 | hm2
            · exact he2 ▸ List.mem_cons_self y ys
            · exact List.mem_cons_of_mem y (h2 x hm2)
        · rcases ih seg (List.mem_cons_of_mem rh hm) with ⟨h1, h2⟩
          exact ⟨h1, fun x hx => List.mem_cons_of_mem y (h2 x hx)⟩

theorem joinAmp_split {segs : List (List Char)} (hne : segs ≠ [])
    (hmem : ∀ seg ∈ segs, ('&' : Char) ∉ seg) :
    splitAllChar '&' (joinAmp segs) = segs := by
  induction segs with
  | nil => exact absurd rfl hne
  | cons x t ih =>
    cases t with
    | nil =>
      simp only [joinAmp]
      exact splitAll_of_not_mem (hmem x (List.mem_cons_self x []))
    | cons y rest =>
      have hx : ('&' : Char) ∉ x := hmem x (List.mem_cons_self x (y :: rest))
      simp only [joinAmp]
      rw [splitAll_append (joinAmp (y :: rest)) hx]
      congr 1
      apply ih (by simp)
      intro seg hseg
      exact hmem seg (List.mem_cons_of_mem x hseg)

/-! ### Soundness of the URL parser -/

theorem splitFirst_decomp_or (c : Char) (l : List Char) :
    ((splitFirstChar c l).2 = none ∧ l = (splitFirstChar c l).1) ∨
    (∃ rest, (splitFirstChar c l).2 = some rest ∧
      l = (splitFirstChar c l).1 ++ c :: rest) := by
  have h := splitFirst_decomp c l
  cases hs : (splitFirstChar c l).2 with
  | none =>
    rw [hs] at h
    exact Or.inl ⟨rfl, h⟩
  | some rest =>
    rw [hs] at h
    exact Or.inr ⟨rest, rfl, h⟩

theorem toNat_ne_of_mem_not_mem {c d : Char} {a : List Char} {n : Nat}
    (hc : c ∈ a) (hd : d ∉ a) (hn : d.toNat = n) : c.toNat ≠ n := by
  intro h
  have hcd : c = d := charEq_of_toNat (by rw [h, hn])
  subst hcd
  exact hd hc

theorem urlCharOK_of_not_bad {c : Char} (h : isBadUrlChar c = false) :
    urlCharOK c = true := by
  rw [urlCharOK, h]
  rfl

theorem parseQuery_nil : parseQuery [] = [] := rfl

theorem parseQuery_sound {qd : List Char}
    (hgood : ∀ c ∈ qd, urlCharOK c = true) (hno : ('#' : Char) ∉ qd) :
    ∀ p ∈ parseQuery qd,
      (∀ c ∈ (Prod.fst p).data,
         urlCharOK c = true ∧ c.toNat ≠ 38 ∧ c.toNat ≠ 61 ∧ c.toNat ≠ 35) ∧
      (∀ c ∈ (Prod.snd p).data,
         urlCharOK c = true ∧ c.toNat ≠ 38 ∧ c.toNat ≠ 35) := by
  intro p hp
  rw [parseQuery] at hp
  rcases List.mem_map.mp hp with ⟨seg, hseg, hpe⟩
  rcases List.mem_filter.mp hseg with ⟨hsegmem, _⟩
  rcases splitAll_mem_spec seg hsegmem with ⟨hamp, hsub⟩
  have hkmem : ∀ c ∈ (splitFirstChar '=' seg).1, c ∈ seg := by
    rcases splitFirst_decomp_or '=' seg with ⟨_, he⟩ | ⟨rest, _, he⟩
    · intro c hc
      rw [he]
      exact hc
    · intro c hc
      rw [he]
      exact List.mem_append.mpr (Or.inl hc)
  have hvmem : ∀ c ∈ (splitFirstChar '=' seg).2.getD [], c ∈ seg := by
    rcases splitFirst_decomp_or '=' seg with ⟨hn, _⟩ | ⟨rest, hs, he⟩
    · rw [hn]
      intro c hc
      simp at hc
    · rw [hs]
      intro c hc
      rw [he]
      exact List.mem_append.mpr (Or.inr (List.mem_cons_of_mem _ hc))
  subst hpe
  constructor
  · intro c hc
    rw [strData_mk] at hc
    have hinseg := hkmem c hc
    have hinqd := hsub c hinseg
    exact ⟨hgood c hinqd, toNat_ne_of_mem_not_mem hinseg hamp rfl,
      toNat_ne_of_mem_not_mem hc (splitFirst_fst_not_mem '=' seg) rfl,
      toNat_ne_of_mem_not_mem hinqd hno rfl⟩
  · intro c hc
    rw [strData_mk] at hc
    have hinseg := hvmem c hc
    have hinqd := hsub c hinseg
    exact ⟨hgood c hinqd, toNat_ne_of_mem_not_mem hinseg hamp rfl,
      toNat_ne_of_mem_not_mem hinqd hno rfl⟩

theorem parseCore_sound {l : List Char} {r : URLRec}
    (hgood : ∀ c ∈ l, isBadUrlChar c = false)
    (h : parseCore l = some r) : r.WF := by
  rw [parseCore] at h
  split at h
  · exact absurd h (by simp)
  · rename_i c0 hh
    split at h
    · exact absurd h (by simp)
    · rename_i halpha
      have ha : isAlphaChar c0 = true := by
        simpa using halpha
      split at h
      · rename_i rr hrest
        split at h
        · exact absurd h (by simp)
        · rename_i hbad
          simp only [Bool.or_eq_true, not_or, Bool.not_eq_true] at hbad
          obtain ⟨hne, hat⟩ := hbad
          have hr := Option.some.inj h
          subst hr
          -- membership transfer
          have hmem_l_of_rr : ∀ c ∈ rr, c ∈ l := by
            intro c hc
            have h1 : c ∈ l.dropWhile isSchemeTailChar := by
              rw [hrest]
              exact List.mem_cons_of_mem _ (List.mem_cons_of_mem _
                (List.mem_cons_of_mem _ hc))
            exact (List.dropWhile_sublist _).subset h1
          have hauth_not_delim : ∀ c ∈ authPart rr, isHostDelim c = false := by
            intro c hc
            have := List.mem_takeWhile_imp hc
            simpa using this
          have hauth_mem : ∀ c ∈ authPart rr, c ∈ rr :=
            fun c hc => (List.takeWhile_sublist _).subset hc
          have hat_not_mem : ('@' : Char) ∉ authPart rr := by
            intro hmem
            have : (authPart rr).contains '@' = true := List.elem_iff.mpr hmem
            rw [this] at hat
            exact absurd hat (by simp)
          have hAA_mem : ∀ c ∈ afterAuthPart rr, c ∈ rr :=
            fun c hc => (List.dropWhile_sublist _).subset hc
          have hhb_mem : ∀ c ∈ (splitFirstChar '#' (afterAuthPart rr)).1,
              c ∈ afterAuthPart rr := by
            rcases splitFirst_decomp_or '#' (afterAuthPart rr) with ⟨_, he⟩ | ⟨t, _, he⟩
            · intro c hc
              rw [he]
              exact hc
            · intro c hc
              rw [he]
              exact List.mem_append.mpr (Or.inl hc)
          have hhb_no : ('#' : Char) ∉ (splitFirstChar '#' (afterAuthPart rr)).1 :=
            splitFirst_fst_not_mem '#' (afterAuthPart rr)
          have hq1_mem : ∀ c ∈ (splitFirstChar '?' (splitFirstChar '#' (afterAuthPart rr)).1).1,
              c ∈ (splitFirstChar '#' (afterAuthPart rr)).1 := by
            rcases splitFirst_decomp_or '?' (splitFirstChar '#' (afterAuthPart rr)).1 with
              ⟨_, he⟩ | ⟨t, _, he⟩
            · intro c hc
              rw [he]
              exact hc
            · intro c hc
              rw [he]
              exact List.mem_append.mpr (Or.inl hc)
          have hq1_no : ('?' : Char) ∉
              (splitFirstChar '?' (splitFirstChar '#' (afterAuthPart rr)).1).1 :=
            splitFirst_fst_not_mem '?' (splitFirstChar '#' (afterAuthPart rr)).1
          have hq1_good : ∀ c ∈ (splitFirstChar '?' (splitFirstChar '#' (afterAuthPart rr)).1).1,
              urlCharOK c = true := by
            intro c hc
            exact urlCharOK_of_not_bad
              (hgood c (hmem_l_of_rr c (hAA_mem c (hhb_mem c (hq1_mem c hc)))))
          have hq1_front : ∃ t2, afterAuthPart rr =
              (splitFirstChar '?' (splitFirstChar '#' (afterAuthPart rr)).1).1 ++ t2 := by
            rcases splitFirst_decomp_or '?' (splitFirstChar '#' (afterAuthPart rr)).1 with
              ⟨_, he⟩ | ⟨t, _, he⟩
            · rcases splitFirst_decomp_or '#' (afterAuthPart rr) with ⟨_, he2⟩ | ⟨t3, _, he2⟩
              · exact ⟨[], (he2.trans he).trans (List.append_nil _).symm⟩
              · exact ⟨'#' :: t3, he2.trans (congrArg (fun x => x ++ '#' :: t3) he)⟩
            · rcases splitFirst_decomp_or '#' (afterAuthPart rr) with ⟨_, he2⟩ | ⟨t3, _, he2⟩
              · exact ⟨'?' :: t, he2.trans he⟩
              · exact ⟨'?' :: t ++ '#' :: t3,
                  (he2.trans (congrArg (fun x => x ++ '#' :: t3) he)).trans
                    (List.append_assoc _ _ _)⟩
          refine ⟨⟨?_, ?_, ?_⟩, ⟨?_, ?_⟩, ⟨?_, ?_⟩, ?_, ?_⟩
          · -- scheme nonempty
            rw [strData_mk]
            rcases List.head?_eq_some_iff.mp hh with ⟨ys, hys⟩
            rw [hys]
            simp
          · -- scheme characters
            intro c hc
            rw [strData_mk] at hc
            rcases List.mem_map.mp hc with ⟨c2, hc2, hce⟩
            subst hce
            exact ⟨isSchemeTailChar_charLower (List.mem_takeWhile_imp hc2),
              charLower_idem c2⟩
          · -- scheme head is a letter
            refine ⟨charLower c0, ?_, isAlphaChar_charLower ha⟩
            rw [strData_mk, List.head?_map, hh]
            rfl
          · -- host nonempty
            rw [strData_mk]
            intro hc
            rw [List.map_eq_nil_iff] at hc
            rw [hc] at hne
            exact absurd hne (by simp)
          · -- host characters
            intro c hc
            rw [strData_mk] at hc
            rcases List.mem_map.mp hc with ⟨c2, hc2, hce⟩
            subst hce
            have hgood2 : urlCharOK c2 = true :=
              urlCharOK_of_not_bad (hgood c2 (hmem_l_of_rr c2 (hauth_mem c2 hc2)))
            have hdelim2 : isHostDelim c2 = false := hauth_not_delim c2 hc2
            have hat2 : c2.toNat ≠ 64 := toNat_ne_of_mem_not_mem hc2 hat_not_mem rfl
            exact ⟨urlCharOK_charLower hgood2, isHostDelim_charLower hdelim2,
              toNat_ne_64_charLower hat2, charLower_idem c2⟩
          · -- path starts with '/'
            rw [strData_mk, pathPart]
            by_cases hq1e : ((splitFirstChar '?' (splitFirstChar '#' (afterAuthPart rr)).1).1).isEmpty
            · rw [if_pos hq1e]
              exact ⟨[], rfl⟩
            · rw [if_neg hq1e]
              cases hq1c : (splitFirstChar '?' (splitFirstChar '#' (afterAuthPart rr)).1).1 with
              | nil =>
                rw [hq1c] at hq1e
                simp at hq1e
              | cons x q1t =>
                rcases hq1_front with ⟨t2, ht2⟩
                have hAAhead : (afterAuthPart rr).head? = some x := by
                  rw [ht2, hq1c]
                  rfl
                have hxdelim : isHostDelim x = true := by
                  have hdw := List.head?_dropWhile_not (fun c => !isHostDelim c) rr
                  rw [show rr.dropWhile (fun c => !isHostDelim c) = afterAuthPart rr from rfl] at hdw
                  rw [hAAhead] at hdw
                  simpa using hdw
                have hx47 : x.toNat = 47 ∨ x.toNat = 63 ∨ x.toNat = 35 := by
                  simpa [isHostDelim] using hxdelim
                have hxq1 : x ∈ (splitFirstChar '?' (splitFirstChar '#' (afterAuthPart rr)).1).1 := by
                  rw [hq1c]
                  exact List.mem_cons_self x q1t
                rcases hx47 with h47 | h63 | h35
                · have hx : x = '/' := charEq_of_toNat (by rw [h47]; rfl)
                  subst hx
                  exact ⟨q1t, rfl⟩
                · exact absurd (charEq_of_toNat (by rw [h63]; rfl) : x = '?')
                    (fun he => hq1_no (he ▸ hxq1))
                · exact absurd (charEq_of_toNat (by rw [h35]; rfl) : x = '#')
                    (fun he => hhb_no (he ▸ hq1_mem x hxq1))
          · -- path characters
            intro c hc
            rw [strData_mk, pathPart] at hc
            by_cases hq1e : ((splitFirstChar '?' (splitFirstChar '#' (afterAuthPart rr)).1).1).isEmpty
            · rw [if_pos hq1e] at hc
              rcases List.mem_singleton.mp hc with rfl
              exact ⟨by decide, by decide, by decide⟩
            · rw [if_neg hq1e] at hc
              exact ⟨hq1_good c hc, toNat_ne_of_mem_not_mem hc hq1_no rfl,
                toNat_ne_of_mem_not_mem (hq1_mem c hc) hhb_no rfl⟩
          · -- query pairs
            rw [queryPart]
            cases hq2 : (splitFirstChar '?' (splitFirstChar '#' (afterAuthPart rr)).1).2 with
            | none =>
              simp only [Option.getD_none, parseQuery_nil]
              intro p hp
              simp at hp
            | some qd =>
              simp only [Option.getD_some]
              have hqd_mem : ∀ c ∈ qd, c ∈ (splitFirstChar '#' (afterAuthPart rr)).1 := by
                rcases splitFirst_decomp_or '?' (splitFirstChar '#' (afterAuthPart rr)).1 with
                  ⟨hn, _⟩ | ⟨t, hs, he⟩
                · rw [hq2] at hn
                  exact absurd hn (by simp)
                · rw [hq2] at hs
                  have ht : t = qd := (Option.some.inj hs).symm
                  subst ht
                  intro c hc
                  rw [he]
                  exact List.mem_append.mpr (Or.inr (List.mem_cons_of_mem _ hc))
              apply parseQuery_sound
              · intro c hc
                exact urlCharOK_of_not_bad
                  (hgood c (hmem_l_of_rr c (hAA_mem c (hhb_mem c (hqd_mem c hc)))))
              · intro hc
                exact hhb_no (hqd_mem _ hc)
          · -- hash characters
            rw [hashPart]
            cases hh2 : (splitFirstChar '#' (afterAuthPart rr)).2 with
            | none =>
              intro c hc
              simp [strData_mk] at hc
            | some t =>
              intro c hc
              rw [strData_mk, Option.getD_some] at hc
              have hcin : c ∈ afterAuthPart rr := by
                rcases splitFirst_decomp_or '#' (afterAuthPart rr) with ⟨hn, _⟩ | ⟨t2, hs, he⟩
                · rw [hh2] at hn
                  exact absurd hn (by simp)
                · rw [hh2] at hs
                  have ht : t2 = t := (Option.some.inj hs).symm
                  subst ht
                  rw [he]
                  exact List.mem_append.mpr (Or.inr (List.mem_cons_of_mem _ hc))
              exact urlCharOK_of_not_bad (hgood c (hmem_l_of_rr c (hAA_mem c hcin)))
      · exact absurd h (by simp)

theorem urlParse_sound {s : String} {r : URLRec} (h : urlParse s = some r) :
    r.WF := by
  rw [urlParse] at h
  by_cases hb : ((trimBy isLe32 s.data).filter (fun c => !isTabNL c)).any isBadUrlChar
  · rw [if_pos hb] at h
    exact absurd h (by simp)
  · rw [if_neg hb] at h
    apply parseCore_sound _ h
    intro c hc
    have := List.any_eq_false.mp (by simpa using hb) c hc
    simpa using this

/-! ### Parsing the string form of a well-formed record -/

theorem isEmpty_false_of_ne_nil {α : Type} {l : List α} (h : l ≠ []) :
    l.isEmpty = false := by
  cases l with
  | nil => exact absurd rfl h
  | cons x xs => rfl

theorem contains_eq_false_of_not_mem {α : Type} [BEq α] [LawfulBEq α]
    {l : List α} {c : α} (h : c ∉ l) : l.contains c = false := by
  by_cases hb : l.contains c
  · exact absurd (List.elem_iff.mp hb) h
  · simpa using hb

theorem isBad_false_of_schemeTail {c : Char} (h : isSchemeTailChar c = true) :
    isBadUrlChar c = false := by
  simp only [isSchemeTailChar, isAlphaChar, isDigitChar, Bool.or_eq_true,
    decide_eq_true_eq] at h
  simp only [isBadUrlChar, decide_eq_false_iff_not, not_or, not_le]
  omega

theorem isBad_false_of_ok {c : Char} (h : urlCharOK c = true) :
    isBadUrlChar c = false := by
  simp only [urlCharOK, Bool.not_eq_true'] at h
  exact h

theorem joinAmp_mem {segs : List (List Char)} :
    ∀ c ∈ joinAmp segs, c = '&' ∨ ∃ seg ∈ segs, c ∈ seg := by
  induction segs with
  | nil =>
    intro c hc
    simp [joinAmp] at hc
  | cons x t ih =>
    cases t with
    | nil =>
      intro c hc
      simp only [joinAmp] at hc
      exact Or.inr ⟨x, List.mem_cons_self x [], hc⟩
    | cons y rest =>
      intro c hc
      simp only [joinAmp] at hc
      rcases List.mem_append.mp hc with hx | hr
      · exact Or.inr ⟨x, List.mem_cons_self x (y :: rest), hx⟩
      · rcases List.mem_cons.mp hr with he | hm
        · exact Or.inl he
        · rcases ih c hm with he | ⟨seg, hseg, hcs⟩
          · exact Or.inl he
          · exact Or.inr ⟨seg, List.mem_cons_of_mem x hseg, hcs⟩

theorem serializeQuery_mem {ps : List (String × String)} :
    ∀ c ∈ serializeQuery ps,
      c = '&' ∨ c = '=' ∨ ∃ p ∈ ps, (c ∈ (Prod.fst p).data ∨ c ∈ (Prod.snd p).data) := by
  intro c hc
  rw [serializeQuery] at hc
  rcases joinAmp_mem c hc with he | ⟨seg, hseg, hcs⟩
  · exact Or.inl he
  · rcases List.mem_map.mp hseg with ⟨p, hp, hpe⟩
    subst hpe
    rcases List.mem_append.mp hcs with hk | hv
    · exact Or.inr (Or.inr ⟨p, hp, Or.inl hk⟩)
    · rcases List.mem_cons.mp hv with he | hm
      · exact Or.inr (Or.inl he)
      · exact Or.inr (Or.inr ⟨p, hp, Or.inr hm⟩)

theorem toStr_data (r : URLRec) : r.toStr.data =
    r.scheme.data ++ ':' :: '/' :: '/' ::
      (r.host.data ++ r.pathname.data ++
       (if r.search.isEmpty then [] else '?' :: serializeQuery r.search) ++
       (if r.hash = "" then [] else '#' :: r.hash.data)) := by
  by_cases hs : r.search.isEmpty <;> by_cases hh : r.hash = "" <;>
    simp [URLRec.toStr, hs, hh, String.data_append, strData_mk,
      show ("://" : String).data = [':', '/', '/'] from rfl,
      show ("" : String).data = [] from rfl, List.append_assoc]

theorem parseQuery_serialize {ps : List (String × String)} (hps : ps ≠ [])
    (hwf : ∀ p ∈ ps,
      (∀ c ∈ (Prod.fst p).data, c ≠ '&' ∧ c ≠ '=') ∧
      (∀ c ∈ (Prod.snd p).data, c ≠ '&')) :
    parseQuery (serializeQuery ps) = ps := by
  rw [parseQuery, serializeQuery]
  have hsegs : ∀ seg ∈ ps.map (fun p => p.1.data ++ '=' :: p.2.data),
      ('&' : Char) ∉ seg := by
    intro seg hseg
    rcases List.mem_map.mp hseg with ⟨p, hp, hpe⟩
    subst hpe
    intro hmem
    rcases List.mem_append.mp hmem with hk | hv
    · exact ((hwf p hp).1 '&' hk).1 rfl
    · rcases List.mem_cons.mp hv with he | hm
      · exact absurd he (by decide)
      · exact (hwf p hp).2 '&' hm rfl
  rw [joinAmp_split (by simpa using hps) hsegs]
  have hfil : (ps.map (fun p => p.1.data ++ '=' :: p.2.data)).filter
      (fun seg => !seg.isEmpty) = ps.map (fun p => p.1.data ++ '=' :: p.2.data) := by
    apply List.filter_eq_self.mpr
    intro seg hseg
    rcases List.mem_map.mp hseg with ⟨p, hp, hpe⟩
    subst hpe
    cases hk : (Prod.fst p).data with
    | nil => simp [hk]
    | cons a t => simp [hk]
  rw [hfil, List.map_map]
  have hid : ∀ p ∈ ps,
      ((fun seg => ((⟨(splitFirstChar '=' seg).1⟩ : String),
          (⟨((splitFirstChar '=' seg).2.getD [])⟩ : String))) ∘
        (fun p => p.1.data ++ '=' :: p.2.data)) p = id p := by
    intro p hp
    have hnk : ('=' : Char) ∉ (Prod.fst p).data := by
      intro hmem
      exact ((hwf p hp).1 '=' hmem).2 rfl
    simp only [Function.comp_apply, id_eq]
    rw [splitFirst_append_of_not_mem (Prod.snd p).data hnk]
    rfl
  rw [List.map_congr_left hid, List.map_id]

theorem parseCore_build {l sch rr : List Char} {c0 : Char}
    (htake : l.takeWhile isSchemeTailChar = sch)
    (hdrop : l.dropWhile isSchemeTailChar = ':' :: '/' :: '/' :: rr)
    (hhead : sch.head? = some c0)
    (halpha : isAlphaChar c0 = true)
    (hne : (authPart rr).isEmpty = false)
    (hat : (authPart rr).contains '@' = false) :
    parseCore l = some
      { scheme := ⟨sch.map charLower⟩
        host := ⟨(authPart rr).map charLower⟩
        pathname := ⟨pathPart rr⟩
        search := parseQuery ((queryPart rr).getD [])
        hash := ⟨(hashPart rr).getD []⟩ } := by
  rw [parseCore, htake, hdrop, hhead]
  simp only [halpha, Bool.not_true, Bool.false_eq_true, if_false, hne, hat,
    Bool.or_self]

theorem toStr_chars_good {r : URLRec} (h : r.WF) :
    ∀ c ∈ r.toStr.data, isBadUrlChar c = false := by
  obtain ⟨⟨hs_ne, hs_chars, ⟨c0, hs_head, hs_alpha⟩⟩, ⟨hh_ne, hh_chars⟩,
    ⟨⟨pt, hp_start⟩, hp_chars⟩, hq_pairs, hha_chars⟩ := h
  intro c hc
  rw [toStr_data] at hc
  rcases List.mem_append.mp hc with hc1 | hc2
  · exact isBad_false_of_schemeTail (hs_chars c hc1).1
  · rcases List.mem_cons.mp hc2 with rfl | hc3
    · decide
    · rcases List.mem_cons.mp hc3 with rfl | hc4
      · decide
      · rcases List.mem_cons.mp hc4 with rfl | hc5
        · decide
        · rcases List.mem_append.mp hc5 with hc6 | hchash
          · rcases List.mem_append.mp hc6 with hc7 | hcq
            · rcases List.mem_append.mp hc7 with hch | hcp
              · exact isBad_false_of_ok (hh_chars c hch).1
              · exact isBad_false_of_ok (hp_chars c hcp).1
            · by_cases hse : r.search.isEmpty
              · rw [if_pos hse] at hcq
                simp at hcq
              · rw [if_neg hse] at hcq
                rcases List.mem_cons.mp hcq with rfl | hcq2
                · decide
                · rcases serializeQuery_mem c hcq2 with rfl | rfl | ⟨p, hp, hkv⟩
                  · decide
                  · decide
                  · rcases hkv with hk | hv
                    · exact isBad_false_of_ok ((hq_pairs p hp).1 c hk).1
                    · exact isBad_false_of_ok ((hq_pairs p hp).2 c hv).1
          · by_cases hhe : r.hash = ""
            · rw [if_pos hhe] at hchash
              simp at hchash
            · rw [if_neg hhe] at hchash
              rcases List.mem_cons.mp hchash with rfl | hch2
              · decide
              · exact isBad_false_of_ok (hha_chars c hch2)

theorem parse_toStr {r : URLRec} (h : r.WF) : urlParse r.toStr = some r := by
  have hall : ∀ c ∈ r.toStr.data, isBadUrlChar c = false := toStr_chars_good h
  obtain ⟨⟨hs_ne, hs_chars, ⟨c0, hs_head, hs_alpha⟩⟩, ⟨hh_ne, hh_chars⟩,
    ⟨⟨pt, hp_start⟩, hp_chars⟩, hq_pairs, hha_chars⟩ := h
  -- the input cleanup leaves the string unchanged
  have hle : ∀ c ∈ r.toStr.data, isLe32 c = false := by
    intro c hc
    have := hall c hc
    simp only [isBadUrlChar, decide_eq_false_iff_not, not_or, not_le] at this
    simp only [isLe32, decide_eq_false_iff_not, not_le]
    omega
  have hpre : (trimBy isLe32 r.toStr.data).filter (fun c => !isTabNL c) =
      r.toStr.data := by
    rw [trimBy_eq_self hle]
    apply List.filter_eq_self.mpr
    intro c hc
    have := hle c hc
    simp only [isLe32, decide_eq_false_iff_not, not_le] at this
    simp only [isTabNL, Bool.not_eq_true', decide_eq_false_iff_not, not_or]
    omega
  have hany : r.toStr.data.any isBadUrlChar = false :=
    List.any_eq_false.mpr (fun c hc => by rw [hall c hc]; simp)
  -- decompose the rendered string
  have hdata := toStr_data r
  have hsch_tail : ∀ c ∈ r.scheme.data, isSchemeTailChar c = true :=
    fun c hc => (hs_chars c hc).1
  have htake : r.toStr.data.takeWhile isSchemeTailChar = r.scheme.data := by
    rw [hdata, takeWhile_append_all _ hsch_tail, List.takeWhile_cons,
      show isSchemeTailChar ':' = false from by decide]
    simp
  have hdrop : r.toStr.data.dropWhile isSchemeTailChar = ':' :: '/' :: '/' ::
      (r.host.data ++ r.pathname.data ++
       (if r.search.isEmpty then [] else '?' :: serializeQuery r.search) ++
       (if r.hash = "" then [] else '#' :: r.hash.data)) := by
    rw [hdata, dropWhile_append_all _ hsch_tail, List.dropWhile_cons,
      show isSchemeTailChar ':' = false from by decide]
    simp
  set REST := r.host.data ++ r.pathname.data ++
      (if r.search.isEmpty then [] else '?' :: serializeQuery r.search) ++
      (if r.hash = "" then [] else '#' :: r.hash.data) with hREST
  -- the authority component is the host
  have hhost_p : ∀ c ∈ r.host.data, (fun c => !isHostDelim c) c = true := by
    intro c hc
    simp [(hh_chars c hc).2.1]
  have hauth : authPart REST = r.host.data := by
    rw [authPart, hREST, List.append_assoc, List.append_assoc,
      takeWhile_append_all _ hhost_p, hp_start]
    simp only [List.cons_append, List.takeWhile_cons]
    simp [isHostDelim]
  have hafter : afterAuthPart REST = r.pathname.data ++
      (if r.search.isEmpty then [] else '?' :: serializeQuery r.search) ++
      (if r.hash = "" then [] else '#' :: r.hash.data) := by
    rw [afterAuthPart, hREST, List.append_assoc, List.append_assoc,
      dropWhile_append_all _ hhost_p, hp_start]
    simp only [List.cons_append, List.dropWhile_cons]
    rw [show (!isHostDelim '/') = false from by decide]
    simp [List.append_assoc]
  -- absence of delimiters in the components
  have hp_no35 : ('#' : Char) ∉ r.pathname.data := by
    intro hmem
    exact (hp_chars '#' hmem).2.2 rfl
  have hp_no63 : ('?' : Char) ∉ r.pathname.data := by
    intro hmem
    exact (hp_chars '?' hmem).2.1 rfl
  have hq_no35 : ('#' : Char) ∉ serializeQuery r.search := by
    intro hmem
    rcases serializeQuery_mem '#' hmem with he | he | ⟨p, hp, hkv⟩
    · exact absurd he (by decide)
    · exact absurd he (by decide)
    · rcases hkv with hk | hv
      · exact ((hq_pairs p hp).1 '#' hk).2.2.2 rfl
      · exact ((hq_pairs p hp).2 '#' hv).2.2 rfl
  have hpq_no35 : ('#' : Char) ∉ r.pathname.data ++
      (if r.search.isEmpty then [] else '?' :: serializeQuery r.search) := by
    intro hmem
    rcases List.mem_append.mp hmem with hcp | hcq
    · exact hp_no35 hcp
    · by_cases hse : r.search.isEmpty
      · rw [if_pos hse] at hcq
        simp at hcq
      · rw [if_neg hse] at hcq
        rcases List.mem_cons.mp hcq with he | hm
        · exact absurd he (by decide)
        · exact hq_no35 hm
  -- the fragment split
  have hsplit_hash : splitFirstChar '#' (afterAuthPart REST) =
      (r.pathname.data ++
        (if r.search.isEmpty then [] else '?' :: serializeQuery r.search),
       if r.hash = "" then none else some r.hash.data) := by
    rw [hafter]
    by_cases hhe : r.hash = ""
    · rw [if_pos hhe, if_pos hhe, List.append_nil]
      exact splitFirst_of_not_mem hpq_no35
    · rw [if_neg hhe, if_neg hhe]
      exact splitFirst_append_of_not_mem r.hash.data hpq_no35
  -- the query split
  have hsplit_q : splitFirstChar '?' (splitFirstChar '#' (afterAuthPart REST)).1 =
      (r.pathname.data,
       if r.search.isEmpty then none else some (serializeQuery r.search)) := by
    rw [hsplit_hash]
    by_cases hse : r.search.isEmpty
    · rw [if_pos hse, if_pos hse, List.append_nil]
      exact splitFirst_of_not_mem hp_no63
    · rw [if_neg hse, if_neg hse]
      exact splitFirst_append_of_not_mem (serializeQuery r.search) hp_no63
  -- assemble
  rw [urlParse]
  simp only [hpre, hany, Bool.false_eq_true, if_false]
  rw [parseCore_build htake hdrop hs_head hs_alpha
    (by rw [hauth]; exact isEmpty_false_of_ne_nil hh_ne)
    (by
      rw [hauth]
      apply contains_eq_false_of_not_mem
      intro hmem
      exact (hh_chars '@' hmem).2.2.1 rfl)]
  congr 1
  have hscheme_fix : r.scheme.data.map charLower = r.scheme.data := by
    rw [List.map_congr_left (fun c hc => (hs_chars c hc).2)]
    exact List.map_id' r.scheme.data
  have hhost_fix : r.host.data.map charLower = r.host.data := by
    rw [List.map_congr_left (fun c hc => (hh_chars c hc).2.2.2)]
    exact List.map_id' r.host.data
  have hpathPart : pathPart REST = r.pathname.data := by
    rw [pathPart, hsplit_q]
    have : r.pathname.data.isEmpty = false := by
      rw [hp_start]
      rfl
    rw [this]
    simp
  have hqueryPart : parseQuery ((queryPart REST).getD []) = r.search := by
    rw [queryPart, hsplit_q]
    by_cases hse : r.search.isEmpty
    · rw [if_pos hse]
      simp only [Option.getD_none, parseQuery_nil]
      exact (List.isEmpty_iff.mp hse).symm
    · rw [if_neg hse]
      simp only [Option.getD_some]
      apply parseQuery_serialize
      · intro he
        rw [he] at hse
        exact hse rfl
      · intro p hp
        refine ⟨fun c hc => ⟨?_, ?_⟩, fun c hc => ?_⟩
        · intro he
          exact ((hq_pairs p hp).1 c hc).2.1 (by rw [he]; rfl)
        · intro he
          exact ((hq_pairs p hp).1 c hc).2.2.1 (by rw [he]; rfl)
        · intro he
          exact ((hq_pairs p hp).2 c hc).2.1 (by rw [he]; rfl)
  have hhashPart : ((hashPart REST).getD []) = r.hash.data := by
    rw [hashPart, hsplit_hash]
    by_cases hhe : r.hash = ""
    · rw [if_pos hhe]
      simp only [Option.getD_none]
      rw [hhe]
    · rw [if_neg hhe]
      rfl
  rw [hauth, hscheme_fix, hhost_fix, hpathPart, hqueryPart, hhashPart]

/-! ### Facts about suffix testing and the normalizing transform -/

theorem startsWithL_iff {l p : List Char} :
    startsWithL l p = true ↔ ∃ t, l = p ++ t := by
  induction p generalizing l with
  | nil =>
    simp [startsWithL]
  | cons y ys ih =>
    cases l with
    | nil =>
      simp [startsWithL]
    | cons x xs =>
      simp only [startsWithL, Bool.and_eq_true, beq_iff_eq]
      constructor
      · rintro ⟨rfl, hs⟩
        rcases ih.mp hs with ⟨t, rfl⟩
        exact ⟨t, rfl⟩
      · rintro ⟨t, ht⟩
        rw [List.cons_append] at ht
        injection ht with h1 h2
        exact ⟨h1, ih.mpr ⟨t, h2⟩⟩

theorem endsWithL_iff {l p : List Char} :
    endsWithL l p = true ↔ ∃ a, l = a ++ p := by
  rw [endsWithL, startsWithL_iff]
  constructor
  · rintro ⟨t, ht⟩
    refine ⟨t.reverse, ?_⟩
    have := congrArg List.reverse ht
    rwa [List.reverse_reverse, List.reverse_append, List.reverse_reverse] at this
  · rintro ⟨a, rfl⟩
    exact ⟨a.reverse, by rw [List.reverse_append]⟩

theorem endsWithL_concat (a : List Char) (x : Char) :
    endsWithL (a ++ [x]) [x] = true :=
  endsWithL_iff.mpr ⟨a, rfl⟩

theorem endsWithL_concat_two (a : List Char) (x : Char) :
    endsWithL (a ++ [x]) [x, x] = endsWithL a [x] := by
  rw [endsWithL, endsWithL, List.reverse_append]
  simp only [List.reverse_cons, List.reverse_nil, List.nil_append, List.cons_append]
  show startsWithL (x :: a.reverse) [x, x] = startsWithL a.reverse [x]
  simp [startsWithL]

theorem strEndsWith_slash_iff {s : String} :
    strEndsWith s "/" = true ↔ ∃ a, s.data = a ++ ['/'] := by
  rw [strEndsWith]
  exact endsWithL_iff

theorem URLRec.eq_of_fields {a b : URLRec} (h1 : a.scheme = b.scheme)
    (h2 : a.host = b.host) (h3 : a.pathname = b.pathname)
    (h4 : a.search = b.search) (h5 : a.hash = b.hash) : a = b := by
  cases a
  cases b
  simp_all

theorem normTransform_scheme (r : URLRec) :
    (normTransform r).scheme = r.scheme := by
  rw [normTransform]
  split <;> rfl

theorem normTransform_host (r : URLRec) :
    (normTransform r).host = toLowerS r.host := by
  rw [normTransform]
  split <;> rfl

theorem normTransform_search (r : URLRec) :
    (normTransform r).search =
      r.search.filter (fun p => !trackingParams.contains p.1) := by
  rw [normTransform]
  split <;> rfl

theorem normTransform_hash (r : URLRec) : (normTransform r).hash = "" := by
  rw [normTransform]
  split <;> rfl

theorem normTransform_pathname (r : URLRec) :
    (normTransform r).pathname =
      if r.pathname ≠ "/" ∧ strEndsWith r.pathname "/" then
        strDropLast r.pathname
      else r.pathname := by
  rw [normTransform]
  split <;> rfl

theorem toLowerS_idem (s : String) : toLowerS (toLowerS s) = toLowerS s := by
  apply String.ext
  rw [toLowerS, toLowerS, strData_mk, strData_mk, List.map_map]
  exact List.map_congr_left (fun c _ => charLower_idem c)

theorem dropLast_pathname_not_slash {s : String}
    (hends : strEndsWith s "/" = true)
    (h2 : strEndsWith s "//" = false) :
    strEndsWith (strDropLast s) "/" = false := by
  rcases strEndsWith_slash_iff.mp hends with ⟨a, ha⟩
  have hdrop : (strDropLast s).data = a := by
    rw [strDropLast, strData_mk, ha, List.dropLast_concat]
  have h22 : endsWithL (a ++ ['/']) ['/', '/'] = false := by
    rw [strEndsWith, ha] at h2
    exact h2
  rw [endsWithL_concat_two] at h22
  rw [strEndsWith, hdrop]
  exact h22

theorem normTransform_idem {r : URLRec}
    (h2 : strEndsWith r.pathname "//" = false) :
    normTransform (normTransform r) = normTransform r := by
  apply URLRec.eq_of_fields
  · rw [normTransform_scheme, normTransform_scheme]
  · rw [normTransform_host, normTransform_host, toLowerS_idem]
  · rw [normTransform_pathname (normTransform r), normTransform_pathname r]
    by_cases hc : r.pathname ≠ "/" ∧ strEndsWith r.pathname "/"
    · have hnext : strEndsWith (strDropLast r.pathname) "/" = false :=
        dropLast_pathname_not_slash hc.2 h2
      have hP : ¬(strDropLast r.pathname ≠ "/" ∧
          strEndsWith (strDropLast r.pathname) "/" = true) := by
        intro hcon
        rw [hnext] at hcon
        exact absurd hcon.2 (by simp)
      rw [if_pos hc, if_neg hP]
    · rw [if_neg hc, if_neg hc]
  · rw [normTransform_search, normTransform_search]
    apply List.filter_eq_self.mpr
    intro p hp
    exact (List.mem_filter.mp hp).2
  · rw [normTransform_hash, normTransform_hash]

theorem normTransform_WF {r : URLRec} (h : r.WF) : (normTransform r).WF := by
  obtain ⟨⟨hs_ne, hs_chars, hs_head⟩, ⟨hh_ne, hh_chars⟩,
    ⟨⟨pt, hp_start⟩, hp_chars⟩, hq_pairs, hha_chars⟩ := h
  refine ⟨?_, ?_, ?_, ?_, ?_⟩
  · rw [normTransform_scheme]
    exact ⟨hs_ne, hs_chars, hs_head⟩
  · rw [normTransform_host, toLowerS, strData_mk]
    constructor
    · intro hc
      rw [List.map_eq_nil_iff] at hc
      exact hh_ne hc
    · intro c hc
      rcases List.mem_map.mp hc with ⟨c2, hc2, hce⟩
      subst hce
      obtain ⟨ho, hd, h64, _⟩ := hh_chars c2 hc2
      exact ⟨urlCharOK_charLower ho, isHostDelim_charLower hd,
        toNat_ne_64_charLower h64, charLower_idem c2⟩
  · rw [normTransform_pathname]
    by_cases hc : r.pathname ≠ "/" ∧ strEndsWith r.pathname "/"
    · rw [if_pos hc]
      have hne2 : pt ≠ [] := by
        intro hpt
        apply hc.1
        apply String.ext
        rw [hp_start, hpt]
      constructor
      · cases hpt : pt with
        | nil => exact absurd hpt hne2
        | cons y ys =>
          refine ⟨(y :: ys).dropLast, ?_⟩
          rw [strDropLast, strData_mk, hp_start, hpt]
          exact List.dropLast_cons₂
      · intro c hc2
        rw [strDropLast, strData_mk] at hc2
        exact hp_chars c ((List.dropLast_sublist _).subset hc2)
    · rw [if_neg hc]
      exact ⟨⟨pt, hp_start⟩, hp_chars⟩
  · rw [normTransform_search]
    intro p hp
    exact hq_pairs p (List.mem_filter.mp hp).1
  · rw [normTransform_hash]
    intro c hc
    simp [show ("" : String).data = [] from rfl] at hc

/-! ### Facts about normalizeUrl, jsTrim and equalsAnyUrl -/

theorem normalizeUrl_of_parse {u : String} {r : URLRec}
    (h : urlParse u = some r) : normalizeUrl u = (normTransform r).toStr := by
  rw [normalizeUrl, h]

theorem normalizeUrl_idem_of_parse {u : String} {r : URLRec}
    (h : urlParse u = some r) (h2 : strEndsWith r.pathname "//" = false) :
    normalizeUrl (normalizeUrl u) = normalizeUrl u := by
  rw [normalizeUrl_of_parse h]
  have hwf2 : (normTransform r).WF := normTransform_WF (urlParse_sound h)
  rw [normalizeUrl_of_parse (parse_toStr hwf2), normTransform_idem h2]

theorem isJsWs_false_of_not_bad {c : Char} (h : isBadUrlChar c = false) :
    isJsWs c = false := by
  simp only [isBadUrlChar, decide_eq_false_iff_not, not_or, not_le] at h
  simp only [isJsWs, decide_eq_false_iff_not, not_or]
  omega

theorem jsTrim_eq_self {s : String} (h : ∀ c ∈ s.data, isJsWs c = false) :
    jsTrim s = s := by
  apply String.ext
  rw [jsTrim, strData_mk, trimBy_eq_self h]

theorem jsTrim_toStr {r : URLRec} (h : r.WF) : jsTrim r.toStr = r.toStr :=
  jsTrim_eq_self (fun c hc => isJsWs_false_of_not_bad (toStr_chars_good h c hc))

theorem toStr_ne_empty {r : URLRec} (h : r.WF) : r.toStr ≠ "" := by
  intro he
  have hd := congrArg String.data he
  rw [toStr_data] at hd
  obtain ⟨⟨hs_ne, _, _⟩, _⟩ := h
  rcases List.append_eq_nil.mp hd with ⟨_, h2⟩
  exact absurd h2 (by simp)

theorem urlParse_jsTrim (s : String) : urlParse (jsTrim s) = urlParse s := by
  simp only [urlParse, jsTrim, strData_mk]
  rw [trimBy_sub s.data]
  intro c hc
  simp only [isJsWs, decide_eq_true_eq] at hc
  simp only [isLe32, decide_eq_true_eq]
  omega

theorem trimBy_eq_nil_of_all {p : Char → Bool} {l : List Char}
    (h : ∀ c ∈ l, p c = true) : trimBy p l = [] := by
  rw [trimBy, List.dropWhile_eq_nil_iff.mpr h]
  rfl

theorem jsTrim_ne_empty_of_parse {u : String} {r : URLRec}
    (h : urlParse u = some r) : ¬(jsTrim u = "") := by
  intro he
  have hdata : trimBy isJsWs u.data = [] := by
    have := congrArg String.data he
    rwa [jsTrim, strData_mk] at this
  have hallws : ∀ c ∈ u.data, isJsWs c = true := trimBy_eq_nil_imp hdata
  have hle : trimBy isLe32 u.data = [] := by
    apply trimBy_eq_nil_of_all
    intro c hc
    have := hallws c hc
    simp only [isJsWs, decide_eq_true_eq] at this
    simp only [isLe32, decide_eq_true_eq]
    omega
  have : urlParse u = none := by
    simp only [urlParse, hle]
    rfl
  rw [this] at h
  exact absurd h (by simp)

theorem equalsAnyUrl_true_iff {url : String} {urls : List String} :
    equalsAnyUrl url urls = true ↔
      ∃ x ∈ urls, ¬(jsTrim x = "") ∧ normalizeUrl (jsTrim x) = normalizeUrl url := by
  rw [equalsAnyUrl]
  constructor
  · intro h
    have hmem := List.elem_iff.mp h
    rcases List.mem_map.mp hmem with ⟨s, hsf, hse⟩
    rcases List.mem_filter.mp hsf with ⟨hsm, hsne⟩
    rcases List.mem_map.mp hsm with ⟨x, hx, hxe⟩
    subst hxe
    refine ⟨x, hx, ?_, hse⟩
    simpa using hsne
  · rintro ⟨x, hx, hne, heq⟩
    apply List.elem_iff.mpr
    apply List.mem_map.mpr
    refine ⟨jsTrim x, ?_, heq⟩
    apply List.mem_filter.mpr
    exact ⟨List.mem_map.mpr ⟨x, hx, rfl⟩, by simpa using hne⟩

theorem equalsAnyUrl_mono {url : String} {l l2 : List String}
    (hsub : ∀ x ∈ l, x ∈ l2) (h : equalsAnyUrl url l = true) :
    equalsAnyUrl url l2 = true := by
  rcases equalsAnyUrl_true_iff.mp h with ⟨x, hx, hne, heq⟩
  exact equalsAnyUrl_true_iff.mpr ⟨x, hsub x hx, hne, heq⟩

theorem equalsAnyUrl_self_of_mem {u : String} {l : List String} (hm : u ∈ l)
    (ht : jsTrim u = u) (hne : u ≠ "") : equalsAnyUrl u l = true :=
  equalsAnyUrl_true_iff.mpr ⟨u, hm, by rw [ht]; exact hne, by rw [ht]⟩

/-! ### Variations of a well-formed URL: trailing slash and tracking keys -/

theorem WF_append_slash {r : URLRec} (h : r.WF) :
    ({ r with pathname := r.pathname ++ "/" } : URLRec).WF := by
  obtain ⟨hs, hh, ⟨⟨pt, hp_start⟩, hp_chars⟩, hq, hha⟩ := h
  refine ⟨hs, hh, ⟨?_, ?_⟩, hq, hha⟩
  · refine ⟨pt ++ ['/'], ?_⟩
    show (r.pathname ++ "/").data = _
    rw [String.data_append, hp_start]
    rfl
  · intro c hc
    rw [show ({ r with pathname := r.pathname ++ "/" } : URLRec).pathname =
      r.pathname ++ "/" from rfl, String.data_append] at hc
    rcases List.mem_append.mp hc with h1 | h2
    · exact hp_chars c h1
    · have h2b : c ∈ ['/'] := h2
      rcases List.mem_singleton.mp h2b with rfl
      exact ⟨by decide, by decide, by decide⟩

theorem normTransform_append_slash {r : URLRec}
    (hstart : ∃ t, r.pathname.data = '/' :: t)
    (hnoslash : strEndsWith r.pathname "/" = false) :
    normTransform { r with pathname := r.pathname ++ "/" } = normTransform r := by
  obtain ⟨pt, hp⟩ := hstart
  apply URLRec.eq_of_fields
  · rw [normTransform_scheme, normTransform_scheme]
  · rw [normTransform_host, normTransform_host]
  · rw [normTransform_pathname, normTransform_pathname]
    have hcond2 : strEndsWith (r.pathname ++ "/") "/" = true := by
      rw [strEndsWith, String.data_append]
      exact endsWithL_concat r.pathname.data '/'
    have hcond1 : (r.pathname ++ "/") ≠ "/" := by
      intro he
      have hd := congrArg String.data he
      rw [String.data_append, hp] at hd
      simp at hd
    have hcondR : ¬(r.pathname ≠ "/" ∧ strEndsWith r.pathname "/" = true) := by
      intro hcon
      rw [hnoslash] at hcon
      exact absurd hcon.2 (by simp)
    rw [if_pos ⟨hcond1, hcond2⟩, if_neg hcondR]
    apply String.ext
    rw [strDropLast, strData_mk]
    show (r.pathname.data ++ ['/']).dropLast = r.pathname.data
    exact List.dropLast_concat
  · rw [normTransform_search, normTransform_search]
  · rw [normTransform_hash, normTransform_hash]

theorem trackingKey_chars {k : String} (hk : k ∈ trackingParams) :
    ∀ c ∈ k.data,
      urlCharOK c = true ∧ c.toNat ≠ 38 ∧ c.toNat ≠ 61 ∧ c.toNat ≠ 35 := by
  simp only [trackingParams, List.mem_cons, List.not_mem_nil, or_false] at hk
  rcases hk with rfl | rfl | rfl | rfl | rfl <;> decide

theorem WF_append_utm {r : URLRec} (h : r.WF) {ps : List (String × String)}
    (hps : ∀ p ∈ ps, (Prod.fst p) ∈ trackingParams ∧
      ∀ c ∈ (Prod.snd p).data, urlCharOK c = true ∧ c.toNat ≠ 38 ∧ c.toNat ≠ 35) :
    ({ r with search := r.search ++ ps } : URLRec).WF := by
  obtain ⟨hs, hh, hp, hq, hha⟩ := h
  refine ⟨hs, hh, hp, ?_, hha⟩
  intro p hpm
  rcases List.mem_append.mp hpm with h1 | h2
  · exact hq p h1
  · exact ⟨trackingKey_chars (hps p h2).1, (hps p h2).2⟩

theorem normTransform_append_utm {r : URLRec} {ps : List (String × String)}
    (hkeys : ∀ p ∈ ps, (Prod.fst p) ∈ trackingParams) :
    normTransform { r with search := r.search ++ ps } = normTransform r := by
  apply URLRec.eq_of_fields
  · rw [normTransform_scheme, normTransform_scheme]
  · rw [normTransform_host, normTransform_host]
  · rw [normTransform_pathname, normTransform_pathname]
  · rw [normTransform_search, normTransform_search]
    show (r.search ++ ps).filter _ = _
    rw [List.filter_append]
    have hnil : ps.filter (fun p => !trackingParams.contains p.1) = [] := by
      apply List.filter_eq_nil_iff.mpr
      intro p hp
      have hcontains : trackingParams.contains p.1 = true :=
        List.elem_iff.mpr (hkeys p hp)
      simp [hcontains]
      exact hkeys p hp
    rw [hnil, List.append_nil]
  · rw [normTransform_hash, normTransform_hash]

/-! ### Facts about the merge loop -/

theorem mergeUrls_nil (existing : List String) : mergeUrls existing [] = existing :=
  rfl

theorem mergeUrls_cons (existing : List String) (u : String) (rest : List String) :
    mergeUrls existing (u :: rest) =
      mergeUrls (if equalsAnyUrl u existing then existing else existing ++ [u])
        rest := rfl

theorem mergeUrls_decomp : ∀ (news existing : List String),
    ∃ t, mergeUrls existing news = existing ++ t ∧ t.Sublist news := by
  intro news
  induction news with
  | nil =>
    intro existing
    exact ⟨[], by simp [mergeUrls_nil], List.nil_sublist _⟩
  | cons u rest ih =>
    intro existing
    rw [mergeUrls_cons]
    by_cases hc : equalsAnyUrl u existing
    · rw [if_pos hc]
      rcases ih existing with ⟨t, ht, hsub⟩
      exact ⟨t, ht, hsub.cons u⟩
    · rw [if_neg hc]
      rcases ih (existing ++ [u]) with ⟨t, ht, hsub⟩
      refine ⟨u :: t, ?_, hsub.cons₂ u⟩
      rw [ht, List.append_assoc]
      rfl

theorem mergeUrls_mem_of_mem {existing news : List String} :
    ∀ x ∈ existing, x ∈ mergeUrls existing news := by
  intro x hx
  rcases mergeUrls_decomp news existing with ⟨t, ht, _⟩
  rw [ht]
  exact List.mem_append.mpr (Or.inl hx)

theorem mergeUrls_all_present : ∀ (news existing : List String),
    (∀ u ∈ news, jsTrim u = u ∧ u ≠ "") →
    ∀ u ∈ news, equalsAnyUrl u (mergeUrls existing news) = true := by
  intro news
  induction news with
  | nil =>
    intro existing _ u hu
    simp at hu
  | cons u0 rest ih =>
    intro existing hgood u hu
    rw [mergeUrls_cons]
    rcases List.mem_cons.mp hu with rfl | hmem
    · by_cases hc : equalsAnyUrl u existing
      · rw [if_pos hc]
        exact equalsAnyUrl_mono (fun x hx => mergeUrls_mem_of_mem x hx) hc
      · rw [if_neg hc]
        have hg := hgood u (List.mem_cons_self u rest)
        apply equalsAnyUrl_self_of_mem _ hg.1 hg.2
        apply mergeUrls_mem_of_mem
        exact List.mem_append.mpr (Or.inr (List.mem_singleton.mpr rfl))
    · exact ih _ (fun v hv => hgood v (List.mem_cons_of_mem u0 hv)) u hmem

theorem mergeUrls_id_of_all_present : ∀ {news acc : List String},
    (∀ u ∈ news, equalsAnyUrl u acc = true) → mergeUrls acc news = acc := by
  intro news
  induction news with
  | nil =>
    intro acc _
    exact mergeUrls_nil acc
  | cons u0 rest ih =>
    intro acc h
    rw [mergeUrls_cons, if_pos (h u0 (List.mem_cons_self u0 rest))]
    exact ih (fun v hv => h v (List.mem_cons_of_mem u0 hv))

theorem mergeUrls_idem {existing news : List String}
    (h : ∀ u ∈ news, jsTrim u = u ∧ u ≠ "") :
    mergeUrls (mergeUrls existing news) news = mergeUrls existing news :=
  mergeUrls_id_of_all_present (fun u hu => mergeUrls_all_present news existing h u hu)

/-! ### Facts about the plugin state operations -/

theorem addToSet_mem_of_mem {x y : String} {l : List String} (h : x ∈ l) :
    x ∈ addToSet y l := by
  rw [addToSet]
  split
  · exact h
  · exact List.mem_append.mpr (Or.inl h)

theorem markBlocked_TUS (m : Option String) (s : PluginState) :
    (markBlocked m s).temporarilyUnblockedMessageIds =
      s.temporarilyUnblockedMessageIds := by
  cases m with
  | none => rfl
  | some i =>
    simp only [markBlocked]
    split <;> rfl

theorem markBlocked_patterns (m : Option String) (s : PluginState) :
    (markBlocked m s).patterns = s.patterns := by
  cases m with
  | none => rfl
  | some i =>
    simp only [markBlocked]
    split <;> rfl

theorem markBlocked_blocked_mono {x : String} (m : Option String)
    {s : PluginState} (h : x ∈ s.blockedMessageIds) :
    x ∈ (markBlocked m s).blockedMessageIds := by
  cases m with
  | none => exact h
  | some i =>
    simp only [markBlocked]
    split
    · exact h
    · exact addToSet_mem_of_mem h

theorem markBlocked_none (s : PluginState) : markBlocked none s = s := rfl

theorem markBlocked_empty (s : PluginState) : markBlocked (some "") s = s := by
  rw [markBlocked]
  simp

theorem filterGo_TUS : ∀ (arr : List Attachment) (s : PluginState),
    (filterAttachmentsGo arr s).2.temporarilyUnblockedMessageIds =
      s.temporarilyUnblockedMessageIds := by
  intro arr
  induction arr with
  | nil =>
    intro s
    rfl
  | cons att rest ih =>
    intro s
    simp only [filterAttachmentsGo]
    split
    · exact ih s
    · split
      · exact ih s
      · split
        · rw [ih (markBlocked att.messageId? s), markBlocked_TUS]
        · exact ih s

theorem filterGo_patterns : ∀ (arr : List Attachment) (s : PluginState),
    (filterAttachmentsGo arr s).2.patterns = s.patterns := by
  intro arr
  induction arr with
  | nil =>
    intro s
    rfl
  | cons att rest ih =>
    intro s
    simp only [filterAttachmentsGo]
    split
    · exact ih s
    · split
      · exact ih s
      · split
        · rw [ih (markBlocked att.messageId? s), markBlocked_patterns]
        · exact ih s

theorem filterGo_blocked_mono : ∀ (arr : List Attachment) (s : PluginState)
    (x : String), x ∈ s.blockedMessageIds →
    x ∈ (filterAttachmentsGo arr s).2.blockedMessageIds := by
  intro arr
  induction arr with
  | nil =>
    intro s x hx
    exact hx
  | cons att rest ih =>
    intro s x hx
    simp only [filterAttachmentsGo]
    split
    · exact ih s x hx
    · split
      · exact ih s x hx
      · split
        · exact ih (markBlocked att.messageId? s) x
            (markBlocked_blocked_mono att.messageId? hx)
        · exact ih s x hx

theorem filterGo_keeps : ∀ (arr : List Attachment) (s : PluginState)
    (att : Attachment),
    attBypass att s.temporarilyUnblockedMessageIds = true → att ∈ arr →
    att ∈ (filterAttachmentsGo arr s).1 := by
  intro arr
  induction arr with
  | nil =>
    intro s att _ hmem
    simp at hmem
  | cons a rest ih =>
    intro s att hbp hmem
    simp only [filterAttachmentsGo]
    rcases List.mem_cons.mp hmem with rfl | hmem2
    · rw [if_pos hbp]
      exact List.mem_cons_self _ _
    · split
      · exact List.mem_cons_of_mem a (ih s att hbp hmem2)
      · split
        · exact List.mem_cons_of_mem a (ih s att hbp hmem2)
        · split
          · apply ih (markBlocked a.messageId? s) att _ hmem2
            rw [markBlocked_TUS]
            exact hbp
          · exact List.mem_cons_of_mem a (ih s att hbp hmem2)

theorem filterGo_state_id_of_unowned : ∀ (arr : List Attachment)
    (s : PluginState),
    (∀ a ∈ arr, a.messageId? = none ∨ a.messageId? = some "") →
    (filterAttachmentsGo arr s).2 = s := by
  intro arr
  induction arr with
  | nil =>
    intro s _
    rfl
  | cons a rest ih =>
    intro s h
    have hrest : ∀ b ∈ rest, b.messageId? = none ∨ b.messageId? = some "" :=
      fun b hb => h b (List.mem_cons_of_mem a hb)
    have hmark : markBlocked a.messageId? s = s := by
      rcases h a (List.mem_cons_self a rest) with hn | he
      · rw [hn, markBlocked_none]
      · rw [he, markBlocked_empty]
    simp only [filterAttachmentsGo]
    split
    · exact ih s hrest
    · split
      · exact ih s hrest
      · split
        · rw [hmark]
          exact ih s hrest
        · exact ih s hrest

theorem shouldBlockEmbed_of_tus {e : Embed} {m : Msg} {s : PluginState}
    (h : idMem m.id? s.temporarilyUnblockedMessageIds = true) :
    shouldBlockEmbed e m s = (false, s) := by
  rw [shouldBlockEmbed, if_pos h]

theorem shouldBlockEmbed_blocked_mono {x : String} (e : Embed) (m : Msg)
    {s : PluginState} (h : x ∈ s.blockedMessageIds) :
    x ∈ (shouldBlockEmbed e m s).2.blockedMessageIds := by
  simp only [shouldBlockEmbed]
  split
  · exact h
  · split
    · exact h
    · split
      · split
        · exact markBlocked_blocked_mono m.id? h
        · exact h
      · split
        · exact markBlocked_blocked_mono m.id? h
        · exact h

theorem toggle_blocked (m : Msg) (b : Bool) (s : PluginState) :
    (toggleTemporaryUnblock m b s).blockedMessageIds = s.blockedMessageIds := by
  rw [toggleTemporaryUnblock]
  cases m.id? with
  | none => rfl
  | some i => cases b <;> rfl

theorem addUrls_blocked (m : Msg) (urls : List String) (s : PluginState) :
    (addUrlsToBlocklistAndRefresh m urls s).blockedMessageIds =
      s.blockedMessageIds := rfl

theorem applyOp_blocked_mono : ∀ (op : EngineOp) (s : PluginState) (x : String),
    x ∈ s.blockedMessageIds → x ∈ (applyOp op s).blockedMessageIds := by
  intro op s x hx
  cases op with
  | classifyEmbed e msg => exact shouldBlockEmbed_blocked_mono e msg hx
  | filterAtts arr => exact filterGo_blocked_mono arr s x hx
  | reveal msg =>
    rw [applyOp, toggle_blocked]
    exact hx
  | hideAgain msg =>
    rw [applyOp, toggle_blocked]
    exact hx
  | blockThese msg urls =>
    rw [applyOp, addUrls_blocked]
    exact hx
  | editPatterns ps => exact hx

theorem runOps_cons (op : EngineOp) (ops : List EngineOp) (s : PluginState) :
    runOps (op :: ops) s = runOps ops (applyOp op s) := rfl

theorem runOps_blocked_mono : ∀ (ops : List EngineOp) (s : PluginState)
    (x : String), x ∈ s.blockedMessageIds →
    x ∈ (runOps ops s).blockedMessageIds := by
  intro ops
  induction ops with
  | nil =>
    intro s x hx
    exact hx
  | cons op rest ih =>
    intro s x hx
    rw [runOps_cons]
    exact ih (applyOp op s) x (applyOp_blocked_mono op s x hx)

/-! ### Claim theorems -/

/-- Claim C1, counterexample: the claim fails at the empty message id.
With `""` in TemporarilyUnblockedSet and an attachment of that message
(`message_id = ""`) whose URL is in the pattern list, `filterAttachments`
still removes the attachment, because the bypass requires a truthy
`message_id`. -/
theorem c1_counterexample :
    "" ∈ (PluginState.mk [] [""]
      ["https://x.com/a.gif"]).temporarilyUnblockedMessageIds ∧
    (filterAttachments
      [Attachment.mk (some "https://x.com/a.gif") none none (some "")]
      (PluginState.mk [] [""] ["https://x.com/a.gif"])).1 = [] :=
  ⟨by decide, by decide⟩

/-- Claim C1 as amended: for every non-empty message id in
TemporarilyUnblockedSet, `classifyEmbed` returns false for every embed of
a message with that id, and `filterAttachments` keeps every attachment
carrying that id, even when the item's URL is present in the pattern
list. -/
theorem c1_thm : ∀ (s : PluginState) (m : String),
    m ∈ s.temporarilyUnblockedMessageIds → m ≠ "" →
    (∀ (e : Embed) (msg : Msg), msg.id? = some m →
      (shouldBlockEmbed e msg s).1 = false) ∧
    (∀ (arr : List Attachment) (att : Attachment), att ∈ arr →
      att.messageId? = some m → att ∈ (filterAttachments arr s).1) := by
  intro s m hmem hne
  constructor
  · intro e msg hid
    have htus : idMem msg.id? s.temporarilyUnblockedMessageIds = true := by
      rw [hid, idMem]
      exact List.elem_iff.mpr hmem
    rw [shouldBlockEmbed_of_tus htus]
  · intro arr att hin hid
    apply filterGo_keeps arr s att _ hin
    have hc : s.temporarilyUnblockedMessageIds.contains m = true :=
      List.elem_iff.mpr hmem
    simp only [attBypass, hid, hc, Bool.and_true]
    simp [hne]

/-- Claim C1 witness: the amended theorem applied at a concrete state
with message id `m1` temporarily unblocked and its URL in the pattern
list. -/
theorem c1_witness :
    (shouldBlockEmbed (Embed.mk none (some "https://x.com/a.gif") none none)
      (Msg.mk (some "m1") none [] [])
      (PluginState.mk [] ["m1"] ["https://x.com/a.gif"])).1 = false ∧
    Attachment.mk (some "https://x.com/a.gif") none none (some "m1") ∈
      (filterAttachments
        [Attachment.mk (some "https://x.com/a.gif") none none (some "m1")]
        (PluginState.mk [] ["m1"] ["https://x.com/a.gif"])).1 :=
  ⟨(c1_thm (PluginState.mk [] ["m1"] ["https://x.com/a.gif"]) "m1"
      (by decide) (by decide)).1
      (Embed.mk none (some "https://x.com/a.gif") none none)
      (Msg.mk (some "m1") none [] []) rfl,
   (c1_thm (PluginState.mk [] ["m1"] ["https://x.com/a.gif"]) "m1"
      (by decide) (by decide)).2
      [Attachment.mk (some "https://x.com/a.gif") none none (some "m1")]
      (Attachment.mk (some "https://x.com/a.gif") none none (some "m1"))
      (List.mem_singleton.mpr rfl) rfl⟩

/-- Claim C2, counterexample: `https://x.com/a?q=.gif` parses
successfully, its path does not end in `.gif` and it has no
`animated=true` parameter, yet `isGifUrl` returns true — the
regular-expression fallback on the raw string also runs when URL parsing
succeeds, refuting the claimed if-and-only-if. -/
theorem c2_counterexample :
    urlParse "https://x.com/a?q=.gif" =
      some (URLRec.mk "https" "x.com" "/a" [("q", ".gif")] "") ∧
    strEndsWith
      (toLowerS (URLRec.mk "https" "x.com" "/a" [("q", ".gif")] "").pathname)
      ".gif" = false ∧
    queryGet (URLRec.mk "https" "x.com" "/a" [("q", ".gif")] "").search
      "animated" ≠ some "true" ∧
    isGifUrl (some "https://x.com/a?q=.gif") = true :=
  ⟨by decide, by decide, by decide, by decide⟩

/-- Claim C2 as amended: an absent URL is never GIF-like, and for every
string the result is the disjunction of the parse-based checks (path
ending in `.gif` case-insensitively, or `animated=true`) with the
regular-expression test on the raw string, the latter being consulted
whenever the parse-based checks do not succeed — also when parsing
succeeds; the claim's examples hold. -/
theorem c2_thm :
    isGifUrl none = false ∧
    (∀ u : String, isGifUrl (some u) =
      ((match urlParse u with
        | some r => strEndsWith (toLowerS r.pathname) ".gif" ||
            (queryGet r.search "animated" == some "true")
        | none => false) || gifRegexTest u.data)) ∧
    isGifUrl (some "https://x.com/a.GIF") = true ∧
    isGifUrl (some "https://x.com/a.png?animated=true") = true ∧
    isGifUrl (some "https://x.com/a.png") = false := by
  refine ⟨rfl, ?_, by decide, by decide, by decide⟩
  intro u
  by_cases hu : u = ""
  · subst hu
    decide
  · simp only [isGifUrl, truthyOpt, if_neg hu]

/-- Claim C3, counterexample: a `gifv` embed with absent `embed.url` but
an `image.url` present in the pattern list is blocked, refuting the
claim that only `embed.url` is consulted and absence of `embed.url`
means never blocking. -/
theorem c3_counterexample :
    (Embed.mk (some "gifv") none (some "https://t.co/x.gif") none).url? =
      none ∧
    (shouldBlockEmbed
      (Embed.mk (some "gifv") none (some "https://t.co/x.gif") none)
      (Msg.mk (some "m1") none [] [])
      (PluginState.mk [] [] ["https://t.co/x.gif"])).1 = true :=
  ⟨rfl, by decide⟩

/-- Claim C3 as amended: for a `gifv` embed on a message not in
TemporarilyUnblockedSet, the blocking decision is
`equalsAnyUrl(url, patterns)` for the resolved URL — the first truthy of
`embed.url`, `embed.image.url`, `embed.thumbnail.url` — and false when
all three are absent or empty. -/
theorem c3_thm : ∀ (e : Embed) (msg : Msg) (s : PluginState),
    idMem msg.id? s.temporarilyUnblockedMessageIds = false →
    e.type? = some "gifv" →
    (shouldBlockEmbed e msg s).1 =
      (match jsOr3 e.url? e.imageUrl? e.thumbnailUrl? with
       | some u => equalsAnyUrl u s.patterns
       | none => false) := by
  intro e msg s h1 h2
  simp only [shouldBlockEmbed, h1, h2, Bool.false_eq_true, if_false,
    beq_self_eq_true, Bool.true_or, Bool.not_true, if_true]
  cases hb : (match jsOr3 e.url? e.imageUrl? e.thumbnailUrl? with
    | some u => equalsAnyUrl u s.patterns
    | none => false) <;> simp [hb]

/-- Claim C3 witness: the amended theorem applied to a concrete `gifv`
embed whose own URL is present and matches a pattern. -/
theorem c3_witness :
    (shouldBlockEmbed
      (Embed.mk (some "gifv") (some "https://t.co/x.gif") none none)
      (Msg.mk (some "m2") none [] [])
      (PluginState.mk [] [] ["https://t.co/x.gif"])).1 = true := by
  have h := c3_thm
    (Embed.mk (some "gifv") (some "https://t.co/x.gif") none none)
    (Msg.mk (some "m2") none [] [])
    (PluginState.mk [] [] ["https://t.co/x.gif"]) (by decide) rfl
  rw [h]
  decide

/-- Claim C4, counterexample: merging the singleton list containing the
empty string twice grows the result on the second call, because the
candidate filter discards empty strings, so idempotence fails as
universally stated. -/
theorem c4_counterexample :
    mergeUrls [] [""] = [""] ∧
    mergeUrls (mergeUrls [] [""]) [""] = ["", ""] :=
  ⟨by decide, by decide⟩

/-- Claim C4 as amended: `mergeUrls` preserves the existing entries as a
prefix and appends new entries in encounter order (a sublist of
`newUrls`); it is idempotent provided every element of `newUrls` is
non-empty and free of surrounding whitespace (such elements survive the
candidate trimming and empty-string filter of `equalsAnyUrl`). -/
theorem c4_thm : ∀ (existing newUrls : List String),
    (∃ t, mergeUrls existing newUrls = existing ++ t ∧ t.Sublist newUrls) ∧
    ((∀ u ∈ newUrls, jsTrim u = u ∧ u ≠ "") →
      mergeUrls (mergeUrls existing newUrls) newUrls =
        mergeUrls existing newUrls) :=
  fun existing newUrls =>
    ⟨mergeUrls_decomp newUrls existing, fun h => mergeUrls_idem h⟩

/-- Claim C4 witness: the amended theorem applied at the specification's
own example, `mergeUrls(["a"], ["a", "b"])`. -/
theorem c4_witness :
    mergeUrls ["a"] ["a", "b"] = ["a", "b"] ∧
    mergeUrls (mergeUrls ["a"] ["a", "b"]) ["a", "b"] =
      mergeUrls ["a"] ["a", "b"] := by
  constructor
  · decide
  · exact (c4_thm ["a"] ["a", "b"]).2 (by decide)

/-- Claim C5, counterexample: `normalize` is not idempotent; a path
ending in two slashes loses one slash per pass:
`https://x.com/a//` normalizes to `https://x.com/a/`, which normalizes
to `https://x.com/a`. -/
theorem c5_counterexample :
    normalizeUrl "https://x.com/a//" = "https://x.com/a/" ∧
    normalizeUrl (normalizeUrl "https://x.com/a//") = "https://x.com/a" ∧
    normalizeUrl (normalizeUrl "https://x.com/a//") ≠
      normalizeUrl "https://x.com/a//" :=
  ⟨by decide, by decide, by decide⟩

/-- Claim C5 as amended: `normalize` is idempotent on every string that
parses successfully as a URL whose path does not end in `//` (on such
inputs one pass reaches a fixed point; the counterexample shows the
excluded paths genuinely fail, and the percent-decoding fallback can
also double-decode). -/
theorem c5_thm : ∀ (u : String) (r : URLRec), urlParse u = some r →
    strEndsWith r.pathname "//" = false →
    normalizeUrl (normalizeUrl u) = normalizeUrl u :=
  fun _ _ h h2 => normalizeUrl_idem_of_parse h h2

/-- Claim C5 witness: the amended theorem applied at the specification's
normalization example. -/
theorem c5_witness :
    normalizeUrl (normalizeUrl "https://EX.com/a/?utm_source=x#f") =
      normalizeUrl "https://EX.com/a/?utm_source=x#f" :=
  c5_thm "https://EX.com/a/?utm_source=x#f"
    (URLRec.mk "https" "ex.com" "/a/" [("utm_source", "x")] "f")
    (by decide) (by decide)

/-- Claim C7, counterexample: `equalsAnyUrl` is not insensitive to one
trailing path slash in general. `https://x.com/a//` differs from
`https://x.com/a/` only by one trailing path slash and both parse as
URLs, yet `equalsAnyUrl` relates them in neither direction: `normalize`
strips exactly one trailing slash per call, so the two strings land in
distinct normal forms (`https://x.com/a/` versus `https://x.com/a`). -/
theorem c7_counterexample :
    "https://x.com/a//" = "https://x.com/a/" ++ "/" ∧
    (urlParse "https://x.com/a/").isSome = true ∧
    (urlParse "https://x.com/a//").isSome = true ∧
    equalsAnyUrl "https://x.com/a/" ["https://x.com/a//"] = false ∧
    equalsAnyUrl "https://x.com/a//" ["https://x.com/a/"] = false :=
  ⟨by decide, by decide, by decide, by decide, by decide⟩

/-- Claim C7 as amended: `equalsAnyUrl` is reflexive on every URL string
the modelled parser accepts, insensitive to appended `utm_*` tracking
parameters (with in-scope values), and insensitive to one trailing path
slash in both directions provided the shorter path does not itself end
in `/` (the counterexample shows the excluded slash-stacked forms
genuinely fail). -/
theorem c7_thm : ∀ (u : String) (r : URLRec), urlParse u = some r →
    equalsAnyUrl u [u] = true ∧
    (strEndsWith r.pathname "/" = false →
      equalsAnyUrl u
        [({ r with pathname := r.pathname ++ "/" } : URLRec).toStr] = true ∧
      equalsAnyUrl ({ r with pathname := r.pathname ++ "/" } : URLRec).toStr
        [u] = true) ∧
    (∀ ps : List (String × String),
      (∀ p ∈ ps, (Prod.fst p) ∈ trackingParams ∧
        ∀ c ∈ (Prod.snd p).data,
          urlCharOK c = true ∧ c.toNat ≠ 38 ∧ c.toNat ≠ 35) →
      equalsAnyUrl u
        [({ r with search := r.search ++ ps } : URLRec).toStr] = true) := by
  intro u r h
  have hwf := urlParse_sound h
  have hp2 : urlParse (jsTrim u) = some r := (urlParse_jsTrim u).trans h
  refine ⟨?_, ?_, ?_⟩
  · apply equalsAnyUrl_true_iff.mpr
    refine ⟨u, List.mem_singleton.mpr rfl, jsTrim_ne_empty_of_parse h, ?_⟩
    rw [normalizeUrl_of_parse hp2, normalizeUrl_of_parse h]
  · intro hnos
    have hwf2 : ({ r with pathname := r.pathname ++ "/" } : URLRec).WF :=
      WF_append_slash hwf
    constructor
    · apply equalsAnyUrl_true_iff.mpr
      refine ⟨_, List.mem_singleton.mpr rfl, ?_, ?_⟩
      · rw [jsTrim_toStr hwf2]
        exact toStr_ne_empty hwf2
      · rw [jsTrim_toStr hwf2, normalizeUrl_of_parse (parse_toStr hwf2),
          normalizeUrl_of_parse h]
        exact congrArg URLRec.toStr
          (normTransform_append_slash hwf.2.2.1.1 hnos)
    · apply equalsAnyUrl_true_iff.mpr
      refine ⟨u, List.mem_singleton.mpr rfl, jsTrim_ne_empty_of_parse h, ?_⟩
      rw [normalizeUrl_of_parse hp2,
        normalizeUrl_of_parse (parse_toStr hwf2)]
      exact (congrArg URLRec.toStr
        (normTransform_append_slash hwf.2.2.1.1 hnos)).symm
  · intro ps hps
    have hwf2 : ({ r with search := r.search ++ ps } : URLRec).WF :=
      WF_append_utm hwf hps
    apply equalsAnyUrl_true_iff.mpr
    refine ⟨_, List.mem_singleton.mpr rfl, ?_, ?_⟩
    · rw [jsTrim_toStr hwf2]
      exact toStr_ne_empty hwf2
    · rw [jsTrim_toStr hwf2, normalizeUrl_of_parse (parse_toStr hwf2),
        normalizeUrl_of_parse h]
      exact congrArg URLRec.toStr
        (normTransform_append_utm (fun p hp => (hps p hp).1))

/-- Claim C7 witness: the amended theorem applied at a concrete URL —
reflexivity, trailing-slash insensitivity in both directions, and
tracking-parameter insensitivity. -/
theorem c7_witness :
    equalsAnyUrl "https://ex.com/a" ["https://ex.com/a"] = true ∧
    equalsAnyUrl "https://ex.com/a"
      [({ URLRec.mk "https" "ex.com" "/a" [] "" with
          pathname := (URLRec.mk "https" "ex.com" "/a" [] "").pathname ++ "/" }
        : URLRec).toStr] = true ∧
    equalsAnyUrl
      ({ URLRec.mk "https" "ex.com" "/a" [] "" with
          pathname := (URLRec.mk "https" "ex.com" "/a" [] "").pathname ++ "/" }
        : URLRec).toStr ["https://ex.com/a"] = true ∧
    equalsAnyUrl "https://ex.com/a"
      [({ URLRec.mk "https" "ex.com" "/a" [] "" with
          search := (URLRec.mk "https" "ex.com" "/a" [] "").search ++
            [("utm_source", "x")] } : URLRec).toStr] = true := by
  have h := c7_thm "https://ex.com/a" (URLRec.mk "https" "ex.com" "/a" [] "")
    (by decide)
  exact ⟨h.1, (h.2.1 (by decide)).1, (h.2.1 (by decide)).2,
    h.2.2 [("utm_source", "x")] (by decide)⟩

/-- Claim C8: BlockedSet is monotonic — across every sequence of engine
operations (classify, filter, reveal, hide-again, block-these, pattern
edits), a message id once in the blocked set is never removed. -/
theorem c8_thm : ∀ (ops : List EngineOp) (s : PluginState) (id : String),
    id ∈ s.blockedMessageIds → id ∈ (runOps ops s).blockedMessageIds :=
  fun ops s id h => runOps_blocked_mono ops s id h

/-- Claim C8 witness: the theorem applied to a concrete session that
exercises every operation kind starting from a state with `m1`
blocked. -/
theorem c8_witness :
    "m1" ∈ (runOps
      [EngineOp.reveal (Msg.mk (some "m1") none [] []),
       EngineOp.editPatterns [],
       EngineOp.hideAgain (Msg.mk (some "m1") none [] []),
       EngineOp.blockThese (Msg.mk (some "m1") none [] [])
         ["https://x.com/a.gif"],
       EngineOp.filterAtts
         [Attachment.mk (some "https://x.com/a.gif") none none (some "m2")],
       EngineOp.classifyEmbed (Embed.mk none none none none)
         (Msg.mk (some "m1") none [] [])]
      (PluginState.mk ["m1"] [] [])).blockedMessageIds :=
  c8_thm
    [EngineOp.reveal (Msg.mk (some "m1") none [] []),
     EngineOp.editPatterns [],
     EngineOp.hideAgain (Msg.mk (some "m1") none [] []),
     EngineOp.blockThese (Msg.mk (some "m1") none [] [])
       ["https://x.com/a.gif"],
     EngineOp.filterAtts
       [Attachment.mk (some "https://x.com/a.gif") none none (some "m2")],
     EngineOp.classifyEmbed (Embed.mk none none none none)
       (Msg.mk (some "m1") none [] [])]
    (PluginState.mk ["m1"] [] []) "m1" (by decide)

/-- Claim C9: `markBlocked` with an absent or empty id is a no-op, and
`filterAttachments` over attachments that all lack a truthy
`message_id` leaves the whole state — in particular BlockedSet —
unchanged, even when it removes attachments. -/
theorem c9_thm :
    (∀ s : PluginState, markBlocked none s = s) ∧
    (∀ s : PluginState, markBlocked (some "") s = s) ∧
    (∀ (arr : List Attachment) (s : PluginState),
      (∀ a ∈ arr, a.messageId? = none ∨ a.messageId? = some "") →
      (filterAttachments arr s).2 = s) :=
  ⟨fun s => markBlocked_none s, fun s => markBlocked_empty s,
   fun arr s h => filterGo_state_id_of_unowned arr s h⟩

/-- Claim C9 witness: a GIF attachment without `message_id` whose URL
matches a pattern is removed while the state, including BlockedSet,
stays unchanged. -/
theorem c9_witness :
    (filterAttachments
      [Attachment.mk (some "https://x.com/a.gif") none none none]
      (PluginState.mk [] [] ["https://x.com/a.gif"])).2 =
      PluginState.mk [] [] ["https://x.com/a.gif"] ∧
    (filterAttachments
      [Attachment.mk (some "https://x.com/a.gif") none none none]
      (PluginState.mk [] [] ["https://x.com/a.gif"])).1 = [] := by
  constructor
  · exact c9_thm.2.2
      [Attachment.mk (some "https://x.com/a.gif") none none none]
      (PluginState.mk [] [] ["https://x.com/a.gif"]) (by decide)
  · decide

/-- Padding a string on both sides with JavaScript whitespace does not
change its trimmed form. -/
theorem jsTrim_pad {w1 w2 : String} (c : String)
    (h1 : ∀ ch ∈ w1.data, isJsWs ch = true)
    (h2 : ∀ ch ∈ w2.data, isJsWs ch = true) :
    jsTrim (w1 ++ c ++ w2) = jsTrim c := by
  apply String.ext
  rw [jsTrim, jsTrim, strData_mk, strData_mk, String.data_append,
    String.data_append]
  exact trimBy_pad c.data h1 h2

/-- Claim C10: `equalsAnyUrl` trims surrounding whitespace from
candidates — padding any candidate with whitespace or inserting
empty-string candidates does not change the result — but never from the
target: `equalsAnyUrl "abc" ["abc"]` is true while
`equalsAnyUrl " abc" ["abc"]` is false. -/
theorem c10_thm :
    (∀ (url : String) (pre post : List String) (c w1 w2 : String),
      w1.data.all isJsWs = true → w2.data.all isJsWs = true →
      equalsAnyUrl url (pre ++ [w1 ++ c ++ w2] ++ post) =
        equalsAnyUrl url (pre ++ [c] ++ post)) ∧
    (∀ (url : String) (pre post : List String),
      equalsAnyUrl url (pre ++ [""] ++ post) = equalsAnyUrl url (pre ++ post)) ∧
    (equalsAnyUrl "abc" ["abc"] = true ∧
     equalsAnyUrl (" " ++ "abc") ["abc"] = false) := by
  refine ⟨?_, ?_, by decide, by decide⟩
  · intro url pre post c w1 w2 hw1 hw2
    simp only [equalsAnyUrl, List.map_append, List.map_singleton]
    rw [jsTrim_pad c (List.all_eq_true.mp hw1) (List.all_eq_true.mp hw2)]
  · intro url pre post
    simp only [equalsAnyUrl, List.map_append, List.map_singleton,
      List.filter_append]
    rw [show ([jsTrim ""].filter (fun s => !(s == ""))) = ([] : List String)
      from by decide]
    simp

/-- Claim C10 witness: candidate padding and empty-candidate insertion
applied at concrete inputs. -/
theorem c10_witness :
    equalsAnyUrl "x" ([] ++ [" " ++ "y" ++ ""] ++ []) =
      equalsAnyUrl "x" ([] ++ ["y"] ++ []) ∧
    equalsAnyUrl "x" ([] ++ [""] ++ ["y"]) = equalsAnyUrl "x" ([] ++ ["y"]) :=
  ⟨c10_thm.1 "x" [] [] "y" " " "" (by decide) (by decide),
   c10_thm.2.1 "x" [] ["y"]⟩
